import Mathlib

/-!
# TripSync trip-state model and date-range algebra: a verification development

This file gives a shallow embedding of the core of the TripSync client
(trip state model `TripState` from the state-management module, and the
date-range algebra / recommendation-intake helpers from `app.js`), together
with theorems settling the specification's testable properties.

Modelling conventions:
* A calendar date is a day number (`Nat`, days since an epoch).  ISO
  `YYYY-MM-DD` strings compare lexicographically exactly as their day
  numbers compare, and `Date` arithmetic on whole days is day-number
  arithmetic, so sorting, equality and the `(a - b) / 86400000` day
  differences in the source transfer faithfully.
* JavaScript strings are sequences of Unicode scalar values, modelled as
  `List Nat` (`JStr`).
* JavaScript array/`Set` operations are modelled on `List`; a `Set` keeps
  first-insertion order, which is `List.dedup`'s order.
* Numbers occurring in day-difference computations are modelled as `Int`
  (JS numbers are exact on these small integer ranges).
* Fallible operations (`try`/`catch`, `throw`) are modelled in `Option`.
-/

namespace TripSync

/-- A JavaScript string: its sequence of Unicode scalar values. -/
abbrev JStr := List Nat

/-! ## Date-range algebra (`app.js`)

`selectedRanges` entries and participants' `availableRanges` entries are
`{start, end}` pairs of calendar dates, here day numbers. -/

/-- A `{start, end}` calendar-date range (both bounds inclusive), dates as
day numbers. -/
structure DayRange where
  start : Nat
  «end» : Nat
deriving DecidableEq, Repr

/-- An output range of `findConsecutiveRanges`: `{start, end, days}` where
`days` is the day difference plus one, computed in JS number arithmetic
(modelled as `Int`). -/
structure OutRange where
  start : Nat
  «end» : Nat
  days : Int
deriving DecidableEq, Repr

/-- The dates covered by one range: the loop
`while (current <= end) { dates.add(...); current.setDate(+1) }` of
`findOverlappingRanges`.  A range with `start > end` yields no dates. -/
def expandRange (r : DayRange) : List Nat :=
  List.range' r.start (r.«end» + 1 - r.start)

/-- One participant as consumed by the date algebra: only its
`availableRanges` field is read (`(p.availableRanges || [])`). -/
structure AParticipant where
  availableRanges : List DayRange
deriving DecidableEq, Repr

/-- The `Set` of available dates of one participant, as a first-insertion
ordered duplicate-free list. -/
def participantDates (p : AParticipant) : List Nat :=
  (p.availableRanges.flatMap expandRange).dedup

/-- The accumulating loop of `findConsecutiveRanges`, carrying `rangeStart`
and `prevDate`.  On a gap of more than one day the current run is flushed
(kept only when it spans `days >= 2`); at the end of input the final run is
flushed the same way. -/
def consRangesAux (rangeStart prevDate : Nat) : List Nat → List OutRange
  | [] =>
      let days : Int := (prevDate : Int) - (rangeStart : Int) + 1
      if 2 ≤ days then [⟨rangeStart, prevDate, days⟩] else []
  | d :: rest =>
      if 1 < (d : Int) - (prevDate : Int) then
        let days : Int := (prevDate : Int) - (rangeStart : Int) + 1
        (if 2 ≤ days then [⟨rangeStart, prevDate, days⟩] else []) ++
          consRangesAux d d rest
      else
        consRangesAux rangeStart d rest

/-- Function `findConsecutiveRanges(dates)` from `app.js`: merge consecutive dates
into `{start, end, days}` runs, keep only runs of two or more days, and
return at most the first ten runs (`ranges.slice(0, 10)`). -/
def findConsecutiveRanges (dates : List Nat) : List OutRange :=
  match dates with
  | [] => []
  | d :: rest => (consRangesAux d d rest).take 10

/-- Function `findOverlappingRanges(participants)` from `app.js`: per-participant
date `Set`s, their intersection, sorted ascending, compacted by
`findConsecutiveRanges`.  The JS array `sort()` on ISO date strings is
ascending-by-day-number sorting. -/
def findOverlappingRanges (participants : List AParticipant) : List OutRange :=
  match participants.map participantDates with
  | [] => []
  | s :: rest =>
      let common := rest.foldl (fun acc t => acc.filter (fun d => t.contains d)) s
      findConsecutiveRanges (common.insertionSort (· ≤ ·))

/-! ## Calendar click handling (`app.js`) -/

/-- The mutable fields of the calendar screen read and written by
`handleDateClick`.  `lastTapTime` is a millisecond timestamp. -/
structure CalendarState where
  selectedRanges : List DayRange
  rangeSelectionStart : Option Nat
  lastTapTime : Int
  lastTapDate : Option Nat
deriving DecidableEq, Repr

/-- Method `isDateInRanges(dateStr)`: the date lies inside some selected range
(inclusive bounds). -/
def isDateInRanges (ranges : List DayRange) (d : Nat) : Bool :=
  ranges.any (fun r => decide (r.start ≤ d) && decide (d ≤ r.«end»))

/-- Method `removeRangeContaining(dateStr)`: drop every selected range that
contains the date. -/
def removeRangeContaining (ranges : List DayRange) (d : Nat) : List DayRange :=
  ranges.filter (fun r => !(decide (r.start ≤ d) && decide (d ≤ r.«end»)))

/-- Method `handleDateClick(dateStr)` from `app.js`, with `Date.now()` passed in
as `now`.  Cases in source order: covered date → remove its range;
double tap → single-day range; no pending start → set pending start;
otherwise commit the pending range (bounds swapped into order). -/
def handleDateClick (st : CalendarState) (d : Nat) (now : Int) : CalendarState :=
  let isDoubleTap := decide (now - st.lastTapTime < 400) && (st.lastTapDate == some d)
  let st1 := { st with lastTapTime := now, lastTapDate := some d }
  if isDateInRanges st1.selectedRanges d then
    { st1 with
        selectedRanges := removeRangeContaining st1.selectedRanges d
        rangeSelectionStart := none }
  else if isDoubleTap then
    { st1 with
        selectedRanges := st1.selectedRanges ++ [⟨d, d⟩]
        rangeSelectionStart := none }
  else
    match st1.rangeSelectionStart with
    | none => { st1 with rangeSelectionStart := some d }
    | some s0 =>
        let lo := if s0 ≤ d then s0 else d
        let hi := if s0 ≤ d then d else s0
        { st1 with
            selectedRanges := st1.selectedRanges ++ [⟨lo, hi⟩]
            rangeSelectionStart := none }

/-! ## Lemmas about the date algebra -/

theorem mem_expandRange {x : Nat} {r : DayRange} :
    x ∈ expandRange r ↔ r.start ≤ x ∧ x ≤ r.«end» := by
  simp only [expandRange, List.mem_range'_1]
  omega

theorem mem_participantDates {x : Nat} {p : AParticipant} :
    x ∈ participantDates p ↔
      ∃ r ∈ p.availableRanges, r.start ≤ x ∧ x ≤ r.«end» := by
  simp only [participantDates, List.mem_dedup, List.mem_flatMap, mem_expandRange]

/-- Every date covered by a range emitted by `consRangesAux` satisfies any
predicate holding on the remaining input dates and on the current run
`[rangeStart, prevDate]`. -/
theorem consRangesAux_cover (P : Nat → Prop) :
    ∀ (l : List Nat) (rs pd : Nat), (∀ x ∈ l, P x) →
      (∀ x, rs ≤ x → x ≤ pd → P x) →
      ∀ r ∈ consRangesAux rs pd l, ∀ x, r.start ≤ x → x ≤ r.«end» → P x := by
  intro l
  induction l with
  | nil =>
      intro rs pd _ hinv r hr x hx1 hx2
      simp only [consRangesAux] at hr
      split at hr
      · simp only [List.mem_singleton] at hr
        subst hr
        exact hinv x hx1 hx2
      · simp at hr
  | cons d rest ih =>
      intro rs pd hl hinv r hr x hx1 hx2
      simp only [consRangesAux] at hr
      split at hr
      · rename_i hgap
        rw [List.mem_append] at hr
        rcases hr with hr | hr
        · split at hr
          · simp only [List.mem_singleton] at hr
            subst hr
            exact hinv x hx1 hx2
          · simp at hr
        · exact ih d d (fun y hy => hl y (List.mem_cons_of_mem d hy))
            (fun y hy1 hy2 => by
              have hy : y = d := by omega
              rw [hy]
              exact hl d (List.mem_cons_self d rest)) r hr x hx1 hx2
      · rename_i hgap
        refine ih rs d (fun y hy => hl y (List.mem_cons_of_mem d hy))
          (fun y hy1 hy2 => ?_) r hr x hx1 hx2
        by_cases hc : y ≤ pd
        · exact hinv y hy1 hc
        · have hy : y = d := by omega
          rw [hy]
          exact hl d (List.mem_cons_self d rest)

/-- Every range emitted by `consRangesAux` spans at least two days, and its
`days` field is the inclusive day count. -/
theorem consRangesAux_two_days :
    ∀ (l : List Nat) (rs pd : Nat), ∀ r ∈ consRangesAux rs pd l,
      r.start < r.«end» ∧ r.days = (r.«end» : Int) - (r.start : Int) + 1 := by
  intro l
  induction l with
  | nil =>
      intro rs pd r hr
      simp only [consRangesAux] at hr
      split at hr
      · rename_i hdays
        simp only [List.mem_singleton] at hr
        subst hr
        constructor
        · simpa using by omega
        · rfl
      · simp at hr
  | cons d rest ih =>
      intro rs pd r hr
      simp only [consRangesAux] at hr
      split at hr
      · rw [List.mem_append] at hr
        rcases hr with hr | hr
        · split at hr
          · rename_i hdays
            simp only [List.mem_singleton] at hr
            subst hr
            exact ⟨by simpa using by omega, rfl⟩
          · simp at hr
        · exact ih d d r hr
      · exact ih rs d r hr

/-- Every range emitted by `consRangesAux` starts no earlier than the
current run start (for sorted input). -/
theorem consRangesAux_start_ge :
    ∀ (l : List Nat) (rs pd : Nat), rs ≤ pd → List.Chain' (· ≤ ·) (pd :: l) →
      ∀ r ∈ consRangesAux rs pd l, rs ≤ r.start := by
  intro l
  induction l with
  | nil =>
      intro rs pd hle _ r hr
      simp only [consRangesAux] at hr
      split at hr
      · simp only [List.mem_singleton] at hr
        subst hr
        exact le_refl rs
      · simp at hr
  | cons d rest ih =>
      intro rs pd hle hch r hr
      rw [List.chain'_cons] at hch
      obtain ⟨hpd, hch⟩ := hch
      simp only [consRangesAux] at hr
      split at hr
      · rw [List.mem_append] at hr
        rcases hr with hr | hr
        · split at hr
          · simp only [List.mem_singleton] at hr
            subst hr
            exact le_refl rs
          · simp at hr
        · exact le_trans (le_trans hle hpd) (ih d d (le_refl d) hch r hr)
      · exact ih rs d (le_trans hle hpd) hch r hr

/-- Successive ranges emitted by `consRangesAux` are separated by at least
one whole missing day: the next range starts at least two days after the
previous one ends. -/
theorem consRangesAux_gap_chain :
    ∀ (l : List Nat) (rs pd : Nat), rs ≤ pd → List.Chain' (· ≤ ·) (pd :: l) →
      List.Chain' (fun a b : OutRange => a.«end» + 2 ≤ b.start)
        (consRangesAux rs pd l) := by
  intro l
  induction l with
  | nil =>
      intro rs pd _ _
      simp only [consRangesAux]
      split
      · exact List.chain'_singleton _
      · exact List.chain'_nil
  | cons d rest ih =>
      intro rs pd hle hch
      rw [List.chain'_cons] at hch
      obtain ⟨hpd, hch⟩ := hch
      simp only [consRangesAux]
      split
      · rename_i hgap
        have htail := ih d d (le_refl d) hch
        split
        · rename_i hdays
          rw [List.singleton_append, List.chain'_cons']
          refine ⟨?_, htail⟩
          intro b hb
          have hb' : b ∈ consRangesAux d d rest := List.mem_of_mem_head? hb
          have := consRangesAux_start_ge rest d d (le_refl d) hch b hb'
          simp only
          omega
        · simpa using htail
      · exact ih rs d (le_trans hle hpd) hch

/-- Helper: under the adjacent-gap chain, an element two days before the
head of the list is two days before every member. -/
theorem gap_chain_head_all :
    ∀ (L : List OutRange) (a : OutRange), (∀ r ∈ L, r.start ≤ r.«end») →
      (∀ b ∈ L.head?, a.«end» + 2 ≤ b.start) →
      List.Chain' (fun a b : OutRange => a.«end» + 2 ≤ b.start) L →
      ∀ b ∈ L, a.«end» + 2 ≤ b.start := by
  intro L
  induction L with
  | nil => intro a _ _ _ b hb; simp at hb
  | cons c L ih =>
      intro a hwf hhead hch b hb
      have hac : a.«end» + 2 ≤ c.start := hhead c rfl
      rcases List.mem_cons.mp hb with hb | hb
      · subst hb; exact hac
      · rw [List.chain'_cons'] at hch
        obtain ⟨hhead', hch'⟩ := hch
        have hcb : c.«end» + 2 ≤ b.start :=
          ih c (fun r hr => hwf r (List.mem_cons_of_mem c hr)) hhead' hch' b hb
        have hc : c.start ≤ c.«end» := hwf c (List.mem_cons_self c L)
        omega

/-- From the two-day property and the adjacent-gap chain, any two output
ranges (not just adjacent ones) are separated by at least two days. -/
theorem gap_chain_pairwise :
    ∀ (L : List OutRange), (∀ r ∈ L, r.start ≤ r.«end») →
      List.Chain' (fun a b : OutRange => a.«end» + 2 ≤ b.start) L →
      List.Pairwise (fun a b : OutRange => a.«end» + 2 ≤ b.start) L := by
  intro L
  induction L with
  | nil => intro _ _; exact List.Pairwise.nil
  | cons a L ih =>
      intro hwf hch
      rw [List.chain'_cons'] at hch
      obtain ⟨hhead, hch⟩ := hch
      exact List.Pairwise.cons
        (gap_chain_head_all L a (fun r hr => hwf r (List.mem_cons_of_mem a hr)) hhead hch)
        (ih (fun r hr => hwf r (List.mem_cons_of_mem a hr)) hch)

/-- Membership in the folded set intersection of `findOverlappingRanges`. -/
theorem mem_foldl_filter (x : Nat) :
    ∀ (rest : List (List Nat)) (s : List Nat),
      x ∈ rest.foldl (fun acc t => acc.filter (fun d => t.contains d)) s ↔
        x ∈ s ∧ ∀ t ∈ rest, x ∈ t := by
  intro rest
  induction rest with
  | nil => simp
  | cons t rest ih =>
      intro s
      rw [List.foldl_cons, ih]
      simp only [List.mem_filter, List.forall_mem_cons, List.contains,
        List.elem_eq_mem, decide_eq_true_eq]
      tauto

/-- C5: on an ascending-sorted date list, `compactToRanges` (implemented as
`findConsecutiveRanges`) emits no single-day range, no two output ranges are
mergeable (every later range starts at least two days after an earlier one
ends), the output is sorted ascending by start, and has at most 10 ranges. -/
theorem C5_compactToRanges_spec (dates : List Nat)
    (hs : List.Chain' (· ≤ ·) dates) :
    (∀ r ∈ findConsecutiveRanges dates, r.start < r.«end») ∧
    List.Pairwise (fun a b : OutRange => a.«end» + 2 ≤ b.start)
      (findConsecutiveRanges dates) ∧
    List.Pairwise (fun a b : OutRange => a.start ≤ b.start)
      (findConsecutiveRanges dates) ∧
    (findConsecutiveRanges dates).length ≤ 10 := by
  cases dates with
  | nil =>
      refine ⟨?_, ?_, ?_, ?_⟩ <;> simp [findConsecutiveRanges]
  | cons d rest =>
      have h2 : ∀ r ∈ consRangesAux d d rest, r.start < r.«end» :=
        fun r hr => (consRangesAux_two_days rest d d r hr).1
      have hgap := consRangesAux_gap_chain rest d d (le_refl d) hs
      have hpw := gap_chain_pairwise (consRangesAux d d rest)
        (fun r hr => le_of_lt (h2 r hr)) hgap
      have hunfold : findConsecutiveRanges (d :: rest) =
          (consRangesAux d d rest).take 10 := rfl
      rw [hunfold]
      have hsub : List.Sublist ((consRangesAux d d rest).take 10)
          (consRangesAux d d rest) := List.take_sublist 10 _
      have hpw2 : List.Pairwise (fun a b : OutRange => a.start ≤ b.start)
          (consRangesAux d d rest) := by
        refine hpw.imp_of_mem ?_
        intro a b ha _ hab
        have := h2 a ha
        omega
      refine ⟨?_, ?_, ?_, ?_⟩
      · exact fun r hr => h2 r (hsub.subset hr)
      · exact hpw.sublist hsub
      · exact hpw2.sublist hsub
      · exact List.length_take_le 10 _

/-- Closed evaluation witness for C5 at a concrete sorted date list. -/
theorem C5_witness :
    (∀ r ∈ findConsecutiveRanges [1, 2, 3, 5, 6, 10, 12, 13], r.start < r.«end») ∧
    List.Pairwise (fun a b : OutRange => a.«end» + 2 ≤ b.start)
      (findConsecutiveRanges [1, 2, 3, 5, 6, 10, 12, 13]) ∧
    List.Pairwise (fun a b : OutRange => a.start ≤ b.start)
      (findConsecutiveRanges [1, 2, 3, 5, 6, 10, 12, 13]) ∧
    (findConsecutiveRanges [1, 2, 3, 5, 6, 10, 12, 13]).length ≤ 10 :=
  C5_compactToRanges_spec [1, 2, 3, 5, 6, 10, 12, 13]
    (by simp [List.chain'_cons])

/-- Every date covered by an output range of `findConsecutiveRanges`
satisfies any predicate holding on all input dates. -/
theorem findConsecutiveRanges_cover (P : Nat → Prop) (l : List Nat)
    (hl : ∀ x ∈ l, P x) :
    ∀ r ∈ findConsecutiveRanges l, ∀ x, r.start ≤ x → x ≤ r.«end» → P x := by
  cases l with
  | nil => intro r hr; simp [findConsecutiveRanges] at hr
  | cons d rest =>
      intro r hr x hx1 hx2
      have hr' : r ∈ consRangesAux d d rest :=
        (List.take_sublist 10 _).subset hr
      exact consRangesAux_cover P rest d d
        (fun y hy => hl y (List.mem_cons_of_mem d hy))
        (fun y hy1 hy2 => by
          have hy : y = d := by omega
          rw [hy]
          exact hl d (List.mem_cons_self d rest)) r hr' x hx1 hx2

/-- C1 (amended): every date inside some output range of
`intersectAvailability` (implemented as `findOverlappingRanges`) is contained
in every participant's `availableRanges`; an empty participant list, or any
participant with zero ranges, yields an empty output.  (The converse of the
first part fails: isolated common dates are dropped, see the
counterexample.) -/
theorem C1_intersectAvailability_sound (participants : List AParticipant) :
    (∀ r ∈ findOverlappingRanges participants, ∀ x, r.start ≤ x → x ≤ r.«end» →
        ∀ p ∈ participants, ∃ dr ∈ p.availableRanges,
          dr.start ≤ x ∧ x ≤ dr.«end») ∧
    (participants = [] → findOverlappingRanges participants = []) ∧
    (∀ p ∈ participants, p.availableRanges = [] →
        findOverlappingRanges participants = []) := by
  cases participants with
  | nil =>
      refine ⟨?_, fun _ => rfl, ?_⟩
      · intro r hr
        simp [findOverlappingRanges] at hr
      · intro p hp
        simp at hp
  | cons p0 ps =>
      have hunfold : findOverlappingRanges (p0 :: ps) =
          findConsecutiveRanges
            (((ps.map participantDates).foldl
                (fun acc t => acc.filter (fun d => t.contains d))
                (participantDates p0)).insertionSort (· ≤ ·)) := rfl
      have hmem : ∀ x, x ∈ (ps.map participantDates).foldl
            (fun acc t => acc.filter (fun d => t.contains d))
            (participantDates p0) ↔
          ∀ p ∈ p0 :: ps, x ∈ participantDates p := by
        intro x
        rw [mem_foldl_filter]
        simp only [List.forall_mem_cons, List.forall_mem_map]
      refine ⟨?_, ?_, ?_⟩
      · intro r hr x hx1 hx2 p hp
        rw [hunfold] at hr
        have hcov := findConsecutiveRanges_cover
            (fun y => y ∈ (ps.map participantDates).foldl
              (fun acc t => acc.filter (fun d => t.contains d))
              (participantDates p0))
            _
            (fun y hy => ((List.perm_insertionSort (· ≤ ·) _).mem_iff).mp hy)
            r hr x hx1 hx2
        exact mem_participantDates.mp ((hmem x).mp hcov p hp)
      · intro h
        cases h
      · intro p hp hranges
        have hpd : participantDates p = [] := by
          simp [participantDates, hranges]
        have hcommon : (ps.map participantDates).foldl
            (fun acc t => acc.filter (fun d => t.contains d))
            (participantDates p0) = [] := by
          rw [List.eq_nil_iff_forall_not_mem]
          intro x hx
          have := (hmem x).mp hx p hp
          rw [hpd] at this
          simp at this
        rw [hunfold, hcommon]
        rfl

/-- C1 counterexample: a single participant whose only range is the single
day 5.  Day 5 is contained in every participant's `availableRanges`, yet
`findOverlappingRanges` outputs no range at all (single-day runs are
dropped), refuting the claimed "if and only if". -/
theorem C1_counterexample :
    (([⟨[⟨5, 5⟩]⟩] : List AParticipant).all
        (fun p => p.availableRanges.any
          (fun dr => decide (dr.start ≤ 5) && decide (5 ≤ dr.«end»)))) = true ∧
    findOverlappingRanges [⟨[⟨5, 5⟩]⟩] = [] := by
  decide

/-- Closed evaluation witness for C1 at a concrete participant list. -/
theorem C1_witness :
    (∀ r ∈ findOverlappingRanges [⟨[⟨1, 5⟩]⟩, ⟨[⟨3, 9⟩]⟩],
        ∀ x, r.start ≤ x → x ≤ r.«end» →
        ∀ p ∈ ([⟨[⟨1, 5⟩]⟩, ⟨[⟨3, 9⟩]⟩] : List AParticipant),
          ∃ dr ∈ p.availableRanges, dr.start ≤ x ∧ x ≤ dr.«end») ∧
    (([⟨[⟨1, 5⟩]⟩, ⟨[⟨3, 9⟩]⟩] : List AParticipant) = [] →
        findOverlappingRanges [⟨[⟨1, 5⟩]⟩, ⟨[⟨3, 9⟩]⟩] = []) ∧
    (∀ p ∈ ([⟨[⟨1, 5⟩]⟩, ⟨[⟨3, 9⟩]⟩] : List AParticipant),
        p.availableRanges = [] →
        findOverlappingRanges [⟨[⟨1, 5⟩]⟩, ⟨[⟨3, 9⟩]⟩] = []) :=
  C1_intersectAvailability_sound [⟨[⟨1, 5⟩]⟩, ⟨[⟨3, 9⟩]⟩]

/-- After removing every range containing a date, no range contains it. -/
theorem isDateInRanges_removeRangeContaining (l : List DayRange) (d : Nat) :
    isDateInRanges (removeRangeContaining l d) d = false := by
  rw [isDateInRanges, List.any_eq_false]
  intro r hr
  rw [removeRangeContaining, List.mem_filter] at hr
  have h2 := hr.2
  simp only [Bool.not_eq_true', Bool.and_eq_false_iff, decide_eq_false_iff_not,
    not_le] at h2
  simp only [Bool.and_eq_true, decide_eq_true_eq, not_and, not_le]
  rcases h2 with h2 | h2 <;> omega

/-- C8: clicking a date already covered by some selected range always takes
the removal branch (even when the click also qualifies as a double tap, for
any `now` and any last-tap state), and afterwards the date is covered by no
range at all, however many overlapping ranges contained it. -/
theorem C8_click_covered_removes (st : CalendarState) (d : Nat) (now : Int)
    (h : isDateInRanges st.selectedRanges d = true) :
    (handleDateClick st d now).selectedRanges =
      removeRangeContaining st.selectedRanges d ∧
    (handleDateClick st d now).rangeSelectionStart = none ∧
    isDateInRanges (handleDateClick st d now).selectedRanges d = false := by
  unfold handleDateClick
  simp only [h, if_true]
  exact ⟨trivial, trivial, isDateInRanges_removeRangeContaining _ d⟩

/-- Closed evaluation witness for C8: date 4 is covered by two overlapping
ranges and the click also qualifies as a double tap; removal still wins. -/
theorem C8_witness :
    isDateInRanges ([⟨3, 5⟩, ⟨4, 9⟩] : List DayRange) 4 = true ∧
    ((handleDateClick ⟨[⟨3, 5⟩, ⟨4, 9⟩], some 7, 0, some 4⟩ 4 100).selectedRanges =
        removeRangeContaining [⟨3, 5⟩, ⟨4, 9⟩] 4 ∧
      (handleDateClick ⟨[⟨3, 5⟩, ⟨4, 9⟩], some 7, 0, some 4⟩ 4 100).rangeSelectionStart = none ∧
      isDateInRanges
        (handleDateClick ⟨[⟨3, 5⟩, ⟨4, 9⟩], some 7, 0, some 4⟩ 4 100).selectedRanges 4 = false) :=
  ⟨by decide, C8_click_covered_removes ⟨[⟨3, 5⟩, ⟨4, 9⟩], some 7, 0, some 4⟩ 4 100 (by decide)⟩

/-! ## Trip model (`TripState` state-management module)

The canonical trip entity graph.  Date strings inside the trip value stay
strings (`JStr`); only the date algebra above works on day numbers. -/

/-- A `{start, end}` pair of ISO date strings, as stored in a trip. -/
structure DateRange where
  start : JStr
  «end» : JStr
deriving DecidableEq, Repr

/-- One participant record.  `createTrip` creates the first five fields;
`departureCity`, `nationality` and `interests` are added by
`updateParticipant` patches during the workflow. -/
structure Participant where
  name : JStr
  availableRanges : List DateRange
  maxDays : Option Int
  maxWeeks : Option Int
  completed : Bool
  departureCity : Option JStr
  nationality : Option JStr
  interests : List JStr
deriving DecidableEq, Repr

/-- One destination option: id, deduplicated country list, and the vote
map from participant name to rank. -/
structure DestinationOption where
  id : JStr
  countries : List JStr
  votes : List (JStr × Int)
deriving DecidableEq, Repr

/-- The root trip aggregate, with the fields `createTrip` creates. -/
structure Trip where
  id : JStr
  name : JStr
  participants : List Participant
  destinations : List DestinationOption
  createdAt : Int
  currentUser : Option JStr
  isOwner : Bool
deriving DecidableEq, Repr

/-- Method `TripState.getParticipant(trip, name)`: first participant with the
given name, or null. -/
def getParticipant (trip : Trip) (name : JStr) : Option Participant :=
  trip.participants.find? (fun p => p.name == name)

/-- A shallow update payload for `TripState.updateParticipant`
(`Object.assign(participant, data)`): each present field overwrites the
participant's field, absent fields leave it unchanged. -/
structure ParticipantPatch where
  name : Option JStr := none
  availableRanges : Option (List DateRange) := none
  maxDays : Option (Option Int) := none
  maxWeeks : Option (Option Int) := none
  completed : Option Bool := none
  departureCity : Option (Option JStr) := none
  nationality : Option (Option JStr) := none
  interests : Option (List JStr) := none
deriving DecidableEq, Repr

/-- The assignment `Object.assign(participant, data)` as an explicit field-wise merge. -/
def applyPatch (p : Participant) (d : ParticipantPatch) : Participant where
  name := d.name.getD p.name
  availableRanges := d.availableRanges.getD p.availableRanges
  maxDays := d.maxDays.getD p.maxDays
  maxWeeks := d.maxWeeks.getD p.maxWeeks
  completed := d.completed.getD p.completed
  departureCity := d.departureCity.getD p.departureCity
  nationality := d.nationality.getD p.nationality
  interests := d.interests.getD p.interests

/-- In-place mutation of the first participant with the given name,
modelled as rebuilding the list with that one entry patched. -/
def updateFirst (l : List Participant) (name : JStr) (d : ParticipantPatch) :
    List Participant :=
  match l with
  | [] => []
  | p :: rest =>
      if p.name == name then applyPatch p d :: rest
      else p :: updateFirst rest name d

/-- Method `TripState.updateParticipant(trip, name, data)`: shallow-merge `data`
onto the first matching participant; silent no-op when no name matches. -/
def updateParticipant (trip : Trip) (name : JStr) (d : ParticipantPatch) :
    Trip :=
  { trip with participants := updateFirst trip.participants name d }

/-- The per-remote-participant arbitration inside `TripState.merge`:
`lp && lp.completed && !rp.completed` keeps the local record; a completed
remote record wins; otherwise `lp || rp` (the local record when one exists,
else the remote one — when no local record exists both later branches
return `rp`). -/
def mergeParticipant (loc : Trip) (rp : Participant) : Participant :=
  match getParticipant loc rp.name with
  | some lp =>
      if lp.completed && !rp.completed then lp
      else if rp.completed then rp
      else lp
  | none => rp

/-- Method `TripState.merge(local, remote)`: null-sided merges return the other
side; otherwise spread the remote trip, arbitrate participants per remote
record, and prefer the non-empty destination list (remote first). -/
def merge (loc remote : Option Trip) : Option Trip :=
  match loc, remote with
  | none, r => r
  | l, none => l
  | some l, some r =>
      some { r with
        participants := r.participants.map (mergeParticipant l)
        destinations :=
          if r.destinations.length > 0 then r.destinations
          else if l.destinations.length > 0 then l.destinations
          else r.destinations }

/-- Method `TripState.allCompleted(trip)`. -/
def allCompleted (trip : Trip) : Bool :=
  trip.participants.all (fun p => p.completed)

/-! ## Lemmas about the trip model -/

/-- Arbitration preserves the participant name. -/
theorem mergeParticipant_name (l : Trip) (rp : Participant) :
    (mergeParticipant l rp).name = rp.name := by
  unfold mergeParticipant
  cases hf : getParticipant l rp.name with
  | none => rfl
  | some lp =>
      have hn : lp.name = rp.name := by
        have := List.find?_some hf
        simpa using this
      simp only
      split
      · exact hn
      · split
        · rfl
        · exact hn

/-- Looking a name up after mapping the arbitration function is the same
as arbitrating the remote lookup result. -/
theorem find?_map_mergeParticipant (l : Trip) (name : JStr) :
    ∀ ps : List Participant,
      (ps.map (mergeParticipant l)).find? (fun p => p.name == name) =
        (ps.find? (fun p => p.name == name)).map (mergeParticipant l) := by
  intro ps
  induction ps with
  | nil => rfl
  | cons p ps ih =>
      cases hb : (p.name == name) with
      | true => simp [List.find?_cons, mergeParticipant_name, hb]
      | false => simp [List.find?_cons, mergeParticipant_name, hb, ih]

/-- Function `updateFirst` is the identity when no participant name matches. -/
theorem updateFirst_no_match (name : JStr) (d : ParticipantPatch) :
    ∀ l : List Participant, (∀ p ∈ l, (p.name == name) = false) →
      updateFirst l name d = l := by
  intro l
  induction l with
  | nil => intro _; rfl
  | cons p rest ih =>
      intro h
      unfold updateFirst
      rw [h p (List.mem_cons_self p rest)]
      simp only [Bool.false_eq_true, if_false]
      rw [ih (fun q hq => h q (List.mem_cons_of_mem p hq))]

/-- Function `updateFirst` patches exactly the first matching participant. -/
theorem updateFirst_match (name : JStr) (d : ParticipantPatch)
    (p : Participant) (l2 : List Participant) (h2 : p.name = name) :
    ∀ l1 : List Participant, (∀ q ∈ l1, q.name ≠ name) →
      updateFirst (l1 ++ p :: l2) name d = l1 ++ applyPatch p d :: l2 := by
  intro l1
  induction l1 with
  | nil =>
      intro _
      rw [List.nil_append, List.nil_append]
      unfold updateFirst
      rw [if_pos (by simp [h2])]
  | cons q l1 ih =>
      intro h1
      have hq : (q.name == name) = false := by
        simpa using h1 q (List.mem_cons_self q l1)
      rw [List.cons_append]
      unfold updateFirst
      rw [hq]
      simp only [Bool.false_eq_true, if_false]
      rw [ih (fun q' hq' => h1 q' (List.mem_cons_of_mem q hq'))]
      rfl

/-! ## Merge and update claims -/

/-- C10: a null side leaves the other trip untouched: `merge(null, t)` and
`merge(t, null)` both return `t` as-is. -/
theorem C10_merge_null_identity (t : Trip) :
    merge none (some t) = some t ∧ merge (some t) none = some t :=
  ⟨rfl, rfl⟩

/-- C3: with participant `name` present on both sides, a completed local
record beats an uncompleted remote record, and a completed remote record
wins; in both cases the winning record appears unchanged in the merged
participants. -/
theorem C3_merge_completed_precedence (l r : Trip) (name : JStr)
    (lp rp : Participant)
    (hl : getParticipant l name = some lp)
    (hr : getParticipant r name = some rp) :
    (lp.completed = true → rp.completed = false →
      ∃ m, merge (some l) (some r) = some m ∧ lp ∈ m.participants) ∧
    (rp.completed = true →
      ∃ m, merge (some l) (some r) = some m ∧ rp ∈ m.participants) := by
  have hname : rp.name = name := by
    have := List.find?_some hr
    simpa using this
  have hrpmem : rp ∈ r.participants := List.mem_of_find?_eq_some hr
  constructor
  · intro hlc hrc
    refine ⟨_, rfl, ?_⟩
    have harb : mergeParticipant l rp = lp := by
      unfold mergeParticipant
      rw [hname, hl]
      simp [hlc, hrc]
    show lp ∈ r.participants.map (mergeParticipant l)
    exact harb ▸ List.mem_map_of_mem (mergeParticipant l) hrpmem
  · intro hrc
    refine ⟨_, rfl, ?_⟩
    have harb : mergeParticipant l rp = rp := by
      unfold mergeParticipant
      rw [hname, hl]
      simp [hrc]
    show rp ∈ r.participants.map (mergeParticipant l)
    exact harb ▸ List.mem_map_of_mem (mergeParticipant l) hrpmem

/-- A minimal participant fixture. -/
def sampleParticipant (nm : JStr) (c : Bool) : Participant :=
  ⟨nm, [], none, none, c, none, none, []⟩

/-- A minimal trip fixture around a participant list. -/
def sampleTrip (ps : List Participant) : Trip :=
  ⟨[116], [110], ps, [], 0, none, true⟩

/-- Closed evaluation witness for C3 at concrete one-participant trips. -/
theorem C3_witness :
    ∃ m, merge (some (sampleTrip [sampleParticipant [80] true]))
        (some (sampleTrip [sampleParticipant [80] false])) = some m ∧
      sampleParticipant [80] true ∈ m.participants :=
  (C3_merge_completed_precedence
    (sampleTrip [sampleParticipant [80] true])
    (sampleTrip [sampleParticipant [80] false])
    [80] (sampleParticipant [80] true) (sampleParticipant [80] false)
    (by decide) (by decide)).1 (by decide) (by decide)

/-- C4 (amended): the merged participant list is exactly the remote list
with each record arbitrated by `mergeParticipant`; hence a name has a
merged record iff the name occurs among the remote participants, the
record for a name is the arbitrated remote record, and a name present only
in the local trip is dropped (see the counterexample). -/
theorem C4_merge_participants (l r : Trip) (name : JStr) :
    ∃ m, merge (some l) (some r) = some m ∧
      m.participants = r.participants.map (mergeParticipant l) ∧
      getParticipant m name =
        (getParticipant r name).map (mergeParticipant l) ∧
      ((∃ p ∈ m.participants, p.name = name) ↔
        (∃ p ∈ r.participants, p.name = name)) := by
  refine ⟨_, rfl, rfl, ?_, ?_⟩
  · show (r.participants.map (mergeParticipant l)).find? (fun p => p.name == name) =
      (r.participants.find? (fun p => p.name == name)).map (mergeParticipant l)
    exact find?_map_mergeParticipant l name r.participants
  · show (∃ p ∈ r.participants.map (mergeParticipant l), p.name = name) ↔
      (∃ p ∈ r.participants, p.name = name)
    simp only [List.mem_map]
    constructor
    · rintro ⟨p, ⟨q, hq, rfl⟩, hpn⟩
      exact ⟨q, hq, by rwa [mergeParticipant_name] at hpn⟩
    · rintro ⟨q, hq, hqn⟩
      exact ⟨mergeParticipant l q, ⟨q, hq, rfl⟩, by rwa [mergeParticipant_name]⟩

/-- C4 counterexample: participant `A` exists only in the local trip; the
merged trip has no record for `A` at all, refuting "a record for every
name present in at least one of the two trips". -/
theorem C4_counterexample :
    (sampleTrip [sampleParticipant [65] true]).participants.any
        (fun p => p.name == [65]) = true ∧
    merge (some (sampleTrip [sampleParticipant [65] true]))
        (some (sampleTrip [])) = some (sampleTrip []) ∧
    (sampleTrip []).participants.any (fun p => p.name == [65]) = false := by
  decide

/-- Closed evaluation witness for C4 at concrete trips. -/
theorem C4_witness :
    ∃ m, merge (some (sampleTrip [sampleParticipant [80] true]))
        (some (sampleTrip [sampleParticipant [80] false])) = some m ∧
      m.participants =
        (sampleTrip [sampleParticipant [80] false]).participants.map
          (mergeParticipant (sampleTrip [sampleParticipant [80] true])) ∧
      getParticipant m [80] =
        (getParticipant (sampleTrip [sampleParticipant [80] false]) [80]).map
          (mergeParticipant (sampleTrip [sampleParticipant [80] true])) ∧
      ((∃ p ∈ m.participants, p.name = [80]) ↔
        (∃ p ∈ (sampleTrip [sampleParticipant [80] false]).participants,
          p.name = [80])) :=
  C4_merge_participants (sampleTrip [sampleParticipant [80] true])
    (sampleTrip [sampleParticipant [80] false]) [80]

/-- C9: `updateParticipant` is a silent no-op when no participant matches;
when one does, exactly the first matching participant is replaced by the
patched record (shallow merge), all other participants and all other trip
fields are untouched; and an empty patch leaves a participant unchanged. -/
theorem C9_updateParticipant_frame (trip : Trip) (name : JStr)
    (d : ParticipantPatch) :
    (getParticipant trip name = none → updateParticipant trip name d = trip) ∧
    (∀ l1 p l2, trip.participants = l1 ++ p :: l2 →
      (∀ q ∈ l1, q.name ≠ name) → p.name = name →
      updateParticipant trip name d =
        { trip with participants := l1 ++ applyPatch p d :: l2 }) ∧
    (∀ q : Participant, applyPatch q {} = q) := by
  refine ⟨?_, ?_, ?_⟩
  · intro h
    have h' : ∀ p ∈ trip.participants, (p.name == name) = false := by
      intro p hp
      have := List.find?_eq_none.mp h p hp
      simpa using this
    unfold updateParticipant
    rw [updateFirst_no_match name d trip.participants h']
  · intro l1 p l2 hsplit h1 h2
    unfold updateParticipant
    rw [hsplit, updateFirst_match name d p l2 h2 l1 h1]
  · intro q
    rfl

/-- Closed evaluation witness for C9: patching participant `A` in a
two-participant trip replaces only the first matching record. -/
theorem C9_witness :
    updateParticipant
        (sampleTrip [sampleParticipant [65] false, sampleParticipant [66] true])
        [65] { completed := some true } =
      { sampleTrip [sampleParticipant [65] false, sampleParticipant [66] true] with
          participants :=
            [] ++ applyPatch (sampleParticipant [65] false) { completed := some true } ::
              [sampleParticipant [66] true] } :=
  (C9_updateParticipant_frame
      (sampleTrip [sampleParticipant [65] false, sampleParticipant [66] true])
      [65] { completed := some true }).2.1
    [] (sampleParticipant [65] false) [sampleParticipant [66] true]
    rfl (by simp) rfl

/-! ## JSON values, `JSON.stringify` and `JSON.parse`

`TripState.encode`/`decode` pipe the trip through `JSON.stringify`,
`encodeURIComponent`, `btoa` and their inverses.  The platform pieces are
modelled concretely below.  JSON numbers are restricted to integers: every
number in a trip value (timestamps, day counts, ranks) is an exact integer,
and the modelled parser rejects fraction/exponent forms. -/

/-- A JSON value (numbers restricted to integers). -/
inductive Json where
  | null : Json
  | bool : Bool → Json
  | num : Int → Json
  | str : JStr → Json
  | arr : List Json → Json
  | obj : List (JStr × Json) → Json
deriving Repr

/-- Decimal digits of a natural number, as character codes. -/
def natToDigits (n : Nat) : List Nat :=
  if n < 10 then [48 + n]
  else natToDigits (n / 10) ++ [48 + n % 10]
decreasing_by exact Nat.div_lt_self (by omega) (by omega)

/-- JS number-to-string for integers: optional minus sign and digits. -/
def intToDigits (n : Int) : List Nat :=
  if n < 0 then 45 :: natToDigits n.natAbs else natToDigits n.natAbs

/-- Lower-case hex digit character. -/
def hexDigitL (n : Nat) : Nat :=
  if n < 10 then 48 + n else 97 + (n - 10)

/-- The `JSON.stringify` escaping of one string character: quote and backslash
get backslash escapes, the short control escapes are used where JS uses
them, remaining control characters become `\u00xx`, everything else is
emitted verbatim. -/
def escChar (c : Nat) : List Nat :=
  if c = 34 then [92, 34]
  else if c = 92 then [92, 92]
  else if c = 8 then [92, 98]
  else if c = 9 then [92, 116]
  else if c = 10 then [92, 110]
  else if c = 12 then [92, 102]
  else if c = 13 then [92, 114]
  else if c < 32 then [92, 117, 48, 48, hexDigitL (c / 16), hexDigitL (c % 16)]
  else [c]

/-- A JSON string literal: quoted and escaped. -/
def quoteStr (s : JStr) : List Nat :=
  34 :: s.flatMap escChar ++ [34]

mutual

/-- Builtin `JSON.stringify` (no indentation, as the source calls it). -/
def Json.stringify : Json → List Nat
  | .null => [110, 117, 108, 108]
  | .bool true => [116, 114, 117, 101]
  | .bool false => [102, 97, 108, 115, 101]
  | .num n => intToDigits n
  | .str s => quoteStr s
  | .arr l => 91 :: stringifyElems l ++ [93]
  | .obj fs => 123 :: stringifyFields fs ++ [125]

/-- Comma-joined stringified array elements. -/
def stringifyElems : List Json → List Nat
  | [] => []
  | [j] => Json.stringify j
  | j :: rest => Json.stringify j ++ 44 :: stringifyElems rest

/-- Comma-joined `"key":value` object members. -/
def stringifyFields : List (JStr × Json) → List Nat
  | [] => []
  | [(k, v)] => quoteStr k ++ 58 :: Json.stringify v
  | (k, v) :: rest => quoteStr k ++ 58 :: Json.stringify v ++ 44 :: stringifyFields rest

end

mutual

/-- Fuel measure matching the parser's fuel consumption. -/
def Json.size : Json → Nat
  | .null => 1
  | .bool _ => 1
  | .num _ => 1
  | .str _ => 1
  | .arr l => sizeElems l + 1
  | .obj fs => sizeFields fs + 1

/-- Fuel measure for an element list. -/
def sizeElems : List Json → Nat
  | [] => 0
  | j :: rest => Json.size j + 1 + sizeElems rest

/-- Fuel measure for a member list. -/
def sizeFields : List (JStr × Json) → Nat
  | [] => 0
  | (_, v) :: rest => Json.size v + 1 + sizeFields rest

end

/-- JSON whitespace. -/
def isWs (c : Nat) : Bool :=
  c = 32 || c = 9 || c = 10 || c = 13

/-- Drop leading JSON whitespace. -/
def skipWs : List Nat → List Nat
  | [] => []
  | c :: rest => if isWs c then skipWs rest else c :: rest

/-- ASCII decimal digit test. -/
def isDigit (c : Nat) : Bool :=
  48 ≤ c && c ≤ 57

/-- Value of one hex digit character (either case). -/
def hexVal (c : Nat) : Option Nat :=
  if 48 ≤ c ∧ c ≤ 57 then some (c - 48)
  else if 65 ≤ c ∧ c ≤ 70 then some (c - 55)
  else if 97 ≤ c ∧ c ≤ 102 then some (c - 87)
  else none

/-- Two-character string escapes accepted by JSON. -/
def escCode (e : Nat) : Option Nat :=
  if e = 34 then some 34
  else if e = 92 then some 92
  else if e = 47 then some 47
  else if e = 98 then some 8
  else if e = 102 then some 12
  else if e = 110 then some 10
  else if e = 114 then some 13
  else if e = 116 then some 9
  else none

mutual

/-- Parse a JSON string body after the opening quote, up to and including
the closing quote. -/
def parseStrBody : List Nat → Option (JStr × List Nat)
  | [] => none
  | c :: rest =>
      if c = 34 then some ([], rest)
      else if c = 92 then parseEscBody rest
      else if c < 32 then none
      else (fun p => (c :: p.1, p.2)) <$> parseStrBody rest
termination_by l => (l.length, 0)

/-- Parse the character following a backslash. -/
def parseEscBody : List Nat → Option (JStr × List Nat)
  | [] => none
  | e :: rest2 =>
      if e = 117 then parseHexEsc rest2
      else (escCode e).bind
        (fun u => (fun p => (u :: p.1, p.2)) <$> parseStrBody rest2)
termination_by l => (l.length, 1)

/-- Parse the four hex digits of a `\uXXXX` escape. -/
def parseHexEsc : List Nat → Option (JStr × List Nat)
  | h1 :: h2 :: h3 :: h4 :: rest3 => do
      let v1 ← hexVal h1
      let v2 ← hexVal h2
      let v3 ← hexVal h3
      let v4 ← hexVal h4
      (fun p => ((((v1 * 16 + v2) * 16 + v3) * 16 + v4) :: p.1, p.2)) <$>
        parseStrBody rest3
  | _ => none
termination_by l => (l.length, 1)

end

/-- Greedy decimal-digit accumulator. -/
def digitsToNat (acc : Nat) : List Nat → (Nat × List Nat)
  | [] => (acc, [])
  | c :: rest =>
      if isDigit c then digitsToNat (acc * 10 + (c - 48)) rest
      else (acc, c :: rest)

/-- Parse a nonempty digit run. -/
def parseNat (s : List Nat) : Option (Nat × List Nat) :=
  match s with
  | [] => none
  | c :: _ => if isDigit c then some (digitsToNat 0 s) else none

/-- Reject fraction/exponent continuations (outside the integer model). -/
def intTail (v : Int) : List Nat → Option (Int × List Nat)
  | [] => some (v, [])
  | c :: rest =>
      if c = 46 || c = 101 || c = 69 then none else some (v, c :: rest)

/-- Parse an integer JSON number. -/
def parseNumber (s : List Nat) : Option (Int × List Nat) :=
  match s with
  | [] => none
  | c :: rest =>
      if c = 45 then
        (parseNat rest).bind (fun p => intTail (-(p.1 : Int)) p.2)
      else
        (parseNat (c :: rest)).bind (fun p => intTail (p.1 : Int) p.2)

/-- Expect a literal keyword tail (`ull`, `rue`, `alse`). -/
def expectLit (lit : List Nat) (s : List Nat) (j : Json) :
    Option (Json × List Nat) :=
  if s.take lit.length = lit then some (j, s.drop lit.length) else none

mutual

/-- Fuel-based JSON value parser (recursive descent, as `JSON.parse`). -/
def parseValue : Nat → List Nat → Option (Json × List Nat)
  | 0, _ => none
  | fuel + 1, s =>
      match skipWs s with
      | [] => none
      | c :: rest =>
          if c = 110 then expectLit [117, 108, 108] rest Json.null
          else if c = 116 then expectLit [114, 117, 101] rest (Json.bool true)
          else if c = 102 then expectLit [97, 108, 115, 101] rest (Json.bool false)
          else if c = 34 then
            (parseStrBody rest).map (fun p => (Json.str p.1, p.2))
          else if c = 91 then
            match skipWs rest with
            | [] => none
            | c2 :: rest2 =>
                if c2 = 93 then some (Json.arr [], rest2)
                else (parseElems fuel (c2 :: rest2)).map
                  (fun p => (Json.arr p.1, p.2))
          else if c = 123 then
            match skipWs rest with
            | [] => none
            | c2 :: rest2 =>
                if c2 = 125 then some (Json.obj [], rest2)
                else (parseFields fuel (c2 :: rest2)).map
                  (fun p => (Json.obj p.1, p.2))
          else (parseNumber (c :: rest)).map (fun p => (Json.num p.1, p.2))

/-- Parse one or more comma-separated array elements and the closing
bracket. -/
def parseElems : Nat → List Nat → Option (List Json × List Nat)
  | 0, _ => none
  | fuel + 1, s => do
      let (j, r) ← parseValue fuel s
      match skipWs r with
      | [] => none
      | c :: r2 =>
          if c = 44 then (parseElems fuel r2).map (fun p => (j :: p.1, p.2))
          else if c = 93 then some ([j], r2)
          else none

/-- Parse one or more comma-separated object members and the closing
brace. -/
def parseFields : Nat → List Nat → Option (List (JStr × Json) × List Nat)
  | 0, _ => none
  | fuel + 1, s =>
      match skipWs s with
      | [] => none
      | c :: rest =>
          if c = 34 then do
            let (k, r) ← parseStrBody rest
            match skipWs r with
            | [] => none
            | c2 :: r2 =>
                if c2 = 58 then do
                  let (v, r3) ← parseValue fuel r2
                  match skipWs r3 with
                  | [] => none
                  | c3 :: r4 =>
                      if c3 = 44 then
                        (parseFields fuel r4).map (fun p => ((k, v) :: p.1, p.2))
                      else if c3 = 125 then some ([(k, v)], r4)
                      else none
                else none
          else none

end

/-- Builtin `JSON.parse`: parse one value with ample fuel and require only trailing
whitespace. -/
def jsonParse (s : List Nat) : Option Json :=
  match parseValue (s.length + 1) s with
  | some (j, r) => if skipWs r = [] then some j else none
  | none => none

/-! ## `encodeURIComponent` / `decodeURIComponent` (byte-level model)

`encodeURIComponent` emits unreserved characters verbatim and every other
character as the `%XX` escapes of its UTF-8 bytes.  Since the unreserved
characters are exactly certain ASCII bytes, the per-character definition
equals: UTF-8-encode the string, then escape every byte outside the
unreserved set.  `decodeURIComponent` is modelled as the byte-level
inverse: literal characters contribute their UTF-8 bytes, `%XX` escapes
contribute the byte `XX`, and the byte stream is UTF-8-decoded (failure,
JS's `URIError`, is `none`). -/

/-- UTF-8 encoding of one Unicode scalar value. -/
def utf8Encode (c : Nat) : List Nat :=
  if c < 128 then [c]
  else if c < 2048 then [192 + c / 64, 128 + c % 64]
  else if c < 65536 then
    [224 + c / 4096, 128 + (c / 64) % 64, 128 + c % 64]
  else
    [240 + c / 262144, 128 + (c / 4096) % 64, 128 + (c / 64) % 64, 128 + c % 64]

/-- UTF-8 encoding of a whole string. -/
def utf8EncodeStr (s : JStr) : List Nat :=
  s.flatMap utf8Encode

/-- Decode the continuation of a two-byte UTF-8 sequence: scalar value and
remaining bytes. -/
def utf8Dec2 (b : Nat) : List Nat → Option (Nat × List Nat)
  | b1 :: rest2 =>
      if 128 ≤ b1 ∧ b1 < 192 then
        if 128 ≤ (b - 192) * 64 + (b1 - 128) then
          some ((b - 192) * 64 + (b1 - 128), rest2)
        else none
      else none
  | _ => none

/-- Decode the continuation of a three-byte UTF-8 sequence. -/
def utf8Dec3 (b : Nat) : List Nat → Option (Nat × List Nat)
  | b1 :: b2 :: rest2 =>
      if (128 ≤ b1 ∧ b1 < 192) ∧ (128 ≤ b2 ∧ b2 < 192) then
        if 2048 ≤ ((b - 224) * 64 + (b1 - 128)) * 64 + (b2 - 128) then
          some (((b - 224) * 64 + (b1 - 128)) * 64 + (b2 - 128), rest2)
        else none
      else none
  | _ => none

/-- Decode the continuation of a four-byte UTF-8 sequence. -/
def utf8Dec4 (b : Nat) : List Nat → Option (Nat × List Nat)
  | b1 :: b2 :: b3 :: rest2 =>
      if (128 ≤ b1 ∧ b1 < 192) ∧ (128 ≤ b2 ∧ b2 < 192) ∧
          (128 ≤ b3 ∧ b3 < 192) then
        if 65536 ≤ ((((b - 240) * 64 + (b1 - 128)) * 64 + (b2 - 128)) * 64 +
              (b3 - 128)) ∧
            ((((b - 240) * 64 + (b1 - 128)) * 64 + (b2 - 128)) * 64 +
              (b3 - 128)) < 1114112 then
          some (((((b - 240) * 64 + (b1 - 128)) * 64 + (b2 - 128)) * 64 +
            (b3 - 128)), rest2)
        else none
      else none
  | _ => none

/-- Fuel-based UTF-8 decoding of a byte sequence (rejecting malformed,
overlong and out-of-range sequences); each decoded character consumes at
least one byte, so byte-count fuel always suffices. -/
def utf8DecodeAux : Nat → List Nat → Option JStr
  | _, [] => some []
  | 0, _ :: _ => none
  | fuel + 1, b :: rest =>
      if b < 128 then (fun s => b :: s) <$> utf8DecodeAux fuel rest
      else if b < 192 then none
      else if b < 224 then
        (utf8Dec2 b rest).bind
          (fun p => (fun s => p.1 :: s) <$> utf8DecodeAux fuel p.2)
      else if b < 240 then
        (utf8Dec3 b rest).bind
          (fun p => (fun s => p.1 :: s) <$> utf8DecodeAux fuel p.2)
      else if b < 248 then
        (utf8Dec4 b rest).bind
          (fun p => (fun s => p.1 :: s) <$> utf8DecodeAux fuel p.2)
      else none

/-- UTF-8 decoding of a byte sequence. -/
def utf8Decode (l : List Nat) : Option JStr :=
  utf8DecodeAux l.length l

/-- The characters `encodeURIComponent` leaves unescaped:
`A-Z a-z 0-9 - _ . ! ~ * ' ( )`. -/
def isUnreserved (b : Nat) : Bool :=
  (65 ≤ b && b ≤ 90) || (97 ≤ b && b ≤ 122) || (48 ≤ b && b ≤ 57) ||
    b = 45 || b = 95 || b = 46 || b = 33 || b = 126 || b = 42 ||
    b = 39 || b = 40 || b = 41

/-- Upper-case hex digit character (as `encodeURIComponent` emits). -/
def hexDigitU (n : Nat) : Nat :=
  if n < 10 then 48 + n else 55 + n

/-- Escape every byte outside the unreserved set as `%XX`. -/
def percentEncodeBytes (bs : List Nat) : List Nat :=
  bs.flatMap (fun b =>
    if isUnreserved b then [b] else [37, hexDigitU (b / 16), hexDigitU (b % 16)])

/-- Builtin `encodeURIComponent`. -/
def encodeURIComponent (s : JStr) : List Nat :=
  percentEncodeBytes (utf8EncodeStr s)

mutual

/-- Recover the byte stream of a percent-encoded string: `%XX` escapes
become the byte `XX`, literal characters contribute their UTF-8 bytes. -/
def percentDecodeBytes : List Nat → Option (List Nat)
  | [] => some []
  | c :: rest =>
      if c = 37 then percentDecodeHex rest
      else (fun bs => utf8Encode c ++ bs) <$> percentDecodeBytes rest
termination_by l => (l.length, 0)

/-- Decode the two hex digits after a percent sign. -/
def percentDecodeHex : List Nat → Option (List Nat)
  | h1 :: h2 :: rest2 => do
      let v1 ← hexVal h1
      let v2 ← hexVal h2
      (fun bs => (v1 * 16 + v2) :: bs) <$> percentDecodeBytes rest2
  | _ => none
termination_by l => (l.length, 1)

end

/-- Builtin `decodeURIComponent` (into `Option`; `none` is JS's `URIError`). -/
def decodeURIComponent (s : List Nat) : Option JStr :=
  (percentDecodeBytes s).bind utf8Decode

/-! ## `btoa` / `atob` -/

/-- Value of one base64 sextet as an alphabet character. -/
def b64Char (n : Nat) : Nat :=
  if n < 26 then 65 + n
  else if n < 52 then 97 + (n - 26)
  else if n < 62 then 48 + (n - 52)
  else if n = 62 then 43
  else 47

/-- Inverse of the base64 alphabet. -/
def b64Dec (c : Nat) : Option Nat :=
  if 65 ≤ c ∧ c ≤ 90 then some (c - 65)
  else if 97 ≤ c ∧ c ≤ 122 then some (26 + (c - 97))
  else if 48 ≤ c ∧ c ≤ 57 then some (52 + (c - 48))
  else if c = 43 then some 62
  else if c = 47 then some 63
  else none

/-- Base64-encode a byte list (with `=` padding). -/
def b64Encode : List Nat → List Nat
  | [] => []
  | [b1] => [b64Char (b1 / 4), b64Char (b1 % 4 * 16), 61, 61]
  | [b1, b2] =>
      [b64Char (b1 / 4), b64Char (b1 % 4 * 16 + b2 / 16),
        b64Char (b2 % 16 * 4), 61]
  | b1 :: b2 :: b3 :: rest =>
      b64Char (b1 / 4) :: b64Char (b1 % 4 * 16 + b2 / 16) ::
        b64Char (b2 % 16 * 4 + b3 / 64) :: b64Char (b3 % 64) :: b64Encode rest

/-- Builtin `btoa`: succeeds only on binary strings (all characters below 256). -/
def btoa (s : List Nat) : Option (List Nat) :=
  if s.all (fun c => c < 256) then some (b64Encode s) else none

/-- Base64-decode four-character groups (padding only at the very end). -/
def b64DecodeGroups : List Nat → Option (List Nat)
  | [] => some []
  | c1 :: c2 :: c3 :: c4 :: rest =>
      if c3 = 61 ∧ c4 = 61 ∧ rest = [] then do
        let s1 ← b64Dec c1
        let s2 ← b64Dec c2
        some [s1 * 4 + s2 / 16]
      else if c4 = 61 ∧ rest = [] then do
        let s1 ← b64Dec c1
        let s2 ← b64Dec c2
        let s3 ← b64Dec c3
        some [s1 * 4 + s2 / 16, s2 % 16 * 16 + s3 / 4]
      else do
        let s1 ← b64Dec c1
        let s2 ← b64Dec c2
        let s3 ← b64Dec c3
        let s4 ← b64Dec c4
        (fun bs => (s1 * 4 + s2 / 16) :: (s2 % 16 * 16 + s3 / 4) ::
          (s3 % 4 * 64 + s4) :: bs) <$> b64DecodeGroups rest
  | _ => none

/-- Builtin `atob` (into `Option`; `none` is JS's `InvalidCharacterError`). -/
def atob (s : List Nat) : Option (List Nat) :=
  b64DecodeGroups s

/-! ## `TripState.encode` / `TripState.decode` -/

/-- The `#trip=` marker searched by `decode` (`url.indexOf('#trip=')`). -/
def markerStr : List Nat :=
  [35, 116, 114, 105, 112, 61]

/-- Suffix of the url after the first occurrence of `#trip=`
(`indexOf` + `substring(hashIndex + 6)`), or `none` when absent. -/
def findMarker (l : List Nat) : Option (List Nat) :=
  match l with
  | [] => none
  | c :: rest =>
      if (c :: rest).take 6 = markerStr then some ((c :: rest).drop 6)
      else findMarker rest

/-- Method `TripState.encode(trip)` applied to an already-JSON-ified trip:
`baseUrl + '#trip=' + btoa(encodeURIComponent(JSON.stringify(trip)))`.
The `try`/`catch` is the `Option`. -/
def encodeJson (baseUrl : List Nat) (j : Json) : Option (List Nat) :=
  (btoa (encodeURIComponent (Json.stringify j))).map
    (fun tok => baseUrl ++ markerStr ++ tok)

/-- Method `TripState.decode(url)`:
`JSON.parse(decodeURIComponent(atob(url.substring(hashIndex + 6))))`, with
`null` both for a missing marker and for any failing stage. -/
def decode (url : List Nat) : Option Json := do
  let tok ← findMarker url
  let bin ← atob tok
  let txt ← decodeURIComponent bin
  jsonParse txt

/-! ## Round-trip lemmas: strings and numbers -/

/-- Separators that may legitimately follow a stringified value. -/
def goodSep (l : List Nat) : Bool :=
  match l with
  | [] => true
  | c :: _ => c = 44 || c = 93 || c = 125

theorem skipWs_cons_of_not_ws {c : Nat} (l : List Nat) (h : isWs c = false) :
    skipWs (c :: l) = c :: l := by
  simp [skipWs, h]

theorem hexVal_hexDigitL : ∀ n : Nat, n < 16 → hexVal (hexDigitL n) = some n := by
  decide

/-- Parsing an escaped string body recovers the original characters. -/
theorem parseStrBody_escape :
    ∀ (s : JStr) (rest : List Nat),
      parseStrBody (s.flatMap escChar ++ 34 :: rest) = some (s, rest) := by
  intro s
  induction s with
  | nil => intro rest; simp [parseStrBody]
  | cons c s ih =>
      intro rest
      have hstep : (c :: s).flatMap escChar ++ 34 :: rest =
          escChar c ++ (s.flatMap escChar ++ 34 :: rest) := by
        simp
      rw [hstep]
      by_cases h34 : c = 34
      · subst h34; simp [escChar, parseStrBody, parseEscBody, escCode, ih]
      · by_cases h92 : c = 92
        · subst h92; simp [escChar, parseStrBody, parseEscBody, escCode, ih]
        · by_cases h8 : c = 8
          · subst h8; simp [escChar, parseStrBody, parseEscBody, escCode, ih]
          · by_cases h9 : c = 9
            · subst h9; simp [escChar, parseStrBody, parseEscBody, escCode, ih]
            · by_cases h10 : c = 10
              · subst h10
                simp [escChar, parseStrBody, parseEscBody, escCode, ih]
              · by_cases h12 : c = 12
                · subst h12
                  simp [escChar, parseStrBody, parseEscBody, escCode, ih]
                · by_cases h13 : c = 13
                  · subst h13
                    simp [escChar, parseStrBody, parseEscBody, escCode, ih]
                  · by_cases hc : c < 32
                    · have e1 : hexVal (hexDigitL (c / 16)) = some (c / 16) :=
                        hexVal_hexDigitL _ (by omega)
                      have e2 : hexVal (hexDigitL (c % 16)) = some (c % 16) :=
                        hexVal_hexDigitL _ (by omega)
                      have h48 : hexVal 48 = some 0 := by decide
                      have hval : ((0 * 16 + 0) * 16 + c / 16) * 16 + c % 16 = c := by
                        omega
                      simp [escChar, h34, h92, h8, h9, h10, h12, h13, hc,
                        parseStrBody, parseEscBody, parseHexEsc, escCode,
                        e1, e2, h48, ih]
                      omega
                    · simp [escChar, h34, h92, h8, h9, h10, h12, h13, hc,
                        parseStrBody, ih]

theorem digitsToNat_stop (acc : Nat) (rest : List Nat)
    (h : goodSep rest = true) : digitsToNat acc rest = (acc, rest) := by
  cases rest with
  | nil => rfl
  | cons c r =>
      have hc : (c = 44 ∨ c = 93) ∨ c = 125 := by
        simpa [goodSep] using h
      have hd : isDigit c = false := by
        rcases hc with (h | h) | h <;> simp [isDigit, h]
      simp [digitsToNat, hd]

theorem digitsToNat_natToDigits (m : Nat) :
    ∀ (acc : Nat) (rest : List Nat),
      digitsToNat acc (natToDigits m ++ rest) =
        digitsToNat (acc * 10 ^ (natToDigits m).length + m) rest := by
  induction m using Nat.strong_induction_on with
  | _ m ih =>
      intro acc rest
      by_cases h : m < 10
      · rw [natToDigits, if_pos h]
        have hd : isDigit (48 + m) = true := by
          simp [isDigit]
          omega
        simp only [List.cons_append, List.nil_append, digitsToNat, hd, if_true]
        have harith : acc * 10 + (48 + m - 48) =
            acc * 10 ^ ([48 + m].length) + m := by
          simp
        rw [harith]
        rfl
      · rw [natToDigits, if_neg h]
        rw [List.append_assoc, ih (m / 10) (Nat.div_lt_self (by omega) (by omega))]
        have hd : isDigit (48 + m % 10) = true := by
          simp [isDigit]
          omega
        simp only [List.cons_append, List.nil_append, digitsToNat, hd, if_true]
        have hlen : (natToDigits (m / 10) ++ [48 + m % 10]).length =
            (natToDigits (m / 10)).length + 1 := by
          simp
        rw [hlen, pow_succ, ← mul_assoc]
        have harith : (acc * 10 ^ (natToDigits (m / 10)).length + m / 10) * 10 +
            (48 + m % 10 - 48) =
            acc * 10 ^ (natToDigits (m / 10)).length * 10 + m := by
          generalize acc * 10 ^ (natToDigits (m / 10)).length = A
          omega
        rw [harith]
        rfl

theorem natToDigits_head (m : Nat) :
    ∃ c t, natToDigits m = c :: t ∧ 48 ≤ c ∧ c ≤ 57 := by
  induction m using Nat.strong_induction_on with
  | _ m ih =>
      by_cases h : m < 10
      · exact ⟨48 + m, [], by rw [natToDigits, if_pos h], by omega, by omega⟩
      · obtain ⟨c, t, hct, h1, h2⟩ :=
          ih (m / 10) (Nat.div_lt_self (by omega) (by omega))
        exact ⟨c, t ++ [48 + m % 10],
          by rw [natToDigits, if_neg h, hct]; rfl, h1, h2⟩

theorem parseNat_natToDigits (m : Nat) (rest : List Nat)
    (h : goodSep rest = true) :
    parseNat (natToDigits m ++ rest) = some (m, rest) := by
  obtain ⟨c, t, hct, h1, h2⟩ := natToDigits_head m
  rw [hct]
  have hd : isDigit c = true := by simp [isDigit]; omega
  show parseNat (c :: (t ++ rest)) = some (m, rest)
  rw [parseNat]
  simp only [hd, if_true]
  rw [show c :: (t ++ rest) = natToDigits m ++ rest by rw [hct]; rfl]
  rw [digitsToNat_natToDigits, digitsToNat_stop _ _ h]
  simp

theorem intTail_goodSep (v : Int) (rest : List Nat)
    (h : goodSep rest = true) : intTail v rest = some (v, rest) := by
  cases rest with
  | nil => rfl
  | cons c r =>
      have hc : (c = 44 ∨ c = 93) ∨ c = 125 := by
        simpa [goodSep] using h
      rcases hc with (h | h) | h <;> simp [intTail, h]

theorem parseNumber_intToDigits (n : Int) (rest : List Nat)
    (h : goodSep rest = true) :
    parseNumber (intToDigits n ++ rest) = some (n, rest) := by
  by_cases hneg : n < 0
  · rw [intToDigits, if_pos hneg]
    rw [List.cons_append, parseNumber]
    simp only [if_pos rfl]
    rw [parseNat_natToDigits _ _ h]
    show intTail (-(n.natAbs : Int)) rest = some (n, rest)
    rw [show -((n.natAbs : Nat) : Int) = n by omega]
    exact intTail_goodSep n rest h
  · rw [intToDigits, if_neg hneg]
    obtain ⟨c, t, hct, h1, h2⟩ := natToDigits_head n.natAbs
    rw [hct, List.cons_append, parseNumber]
    rw [if_neg (by omega)]
    rw [show c :: (t ++ rest) = natToDigits n.natAbs ++ rest by rw [hct]; rfl]
    rw [parseNat_natToDigits _ _ h]
    show intTail ((n.natAbs : Nat) : Int) rest = some (n, rest)
    rw [show ((n.natAbs : Nat) : Int) = n by omega]
    exact intTail_goodSep n rest h

/-- The first character of a stringified value is never whitespace, a
comma, or a closing bracket/brace. -/
theorem stringify_head (j : Json) :
    ∃ c t, Json.stringify j = c :: t ∧ isWs c = false ∧
      c ≠ 44 ∧ c ≠ 93 ∧ c ≠ 125 := by
  cases j with
  | null =>
      exact ⟨110, [117, 108, 108], by simp [Json.stringify], by decide,
        by decide, by decide, by decide⟩
  | bool b =>
      cases b with
      | true =>
          exact ⟨116, [114, 117, 101], by simp [Json.stringify], by decide,
            by decide, by decide, by decide⟩
      | false =>
          exact ⟨102, [97, 108, 115, 101], by simp [Json.stringify], by decide,
            by decide, by decide, by decide⟩
  | num n =>
      by_cases hneg : n < 0
      · exact ⟨45, natToDigits n.natAbs,
          by simp [Json.stringify, intToDigits, hneg], by decide, by decide,
          by decide, by decide⟩
      · obtain ⟨c, t, hct, h1, h2⟩ := natToDigits_head n.natAbs
        refine ⟨c, t, by simp [Json.stringify, intToDigits, hneg, hct], ?_,
          by omega, by omega, by omega⟩
        simp [isWs]
        omega
  | str s =>
      exact ⟨34, s.flatMap escChar ++ [34],
        by simp [Json.stringify, quoteStr], by decide, by decide, by decide,
        by decide⟩
  | arr l =>
      exact ⟨91, stringifyElems l ++ [93], by simp [Json.stringify],
        by decide, by decide, by decide, by decide⟩
  | obj fs =>
      exact ⟨123, stringifyFields fs ++ [125], by simp [Json.stringify],
        by decide, by decide, by decide, by decide⟩

/-- The first character of a stringified nonempty element list is the head
of its first element. -/
theorem stringifyElems_head (j0 : Json) (l' : List Json) :
    ∃ c t, stringifyElems (j0 :: l') = c :: t ∧ isWs c = false ∧
      c ≠ 44 ∧ c ≠ 93 ∧ c ≠ 125 := by
  obtain ⟨c, t, hct, h1, h2, h3, h4⟩ := stringify_head j0
  cases l' with
  | nil => exact ⟨c, t, by simp [stringifyElems, hct], h1, h2, h3, h4⟩
  | cons j1 l'' =>
      exact ⟨c, t ++ 44 :: stringifyElems (j1 :: l''),
        by simp [stringifyElems, hct], h1, h2, h3, h4⟩

/-- A stringified nonempty member list starts with the opening quote of its
first key. -/
theorem stringifyFields_head (k : JStr) (v : Json) (fs : List (JStr × Json)) :
    ∃ t, stringifyFields ((k, v) :: fs) = 34 :: t := by
  cases fs with
  | nil =>
      exact ⟨k.flatMap escChar ++ [34] ++ 58 :: Json.stringify v,
        by simp [stringifyFields, quoteStr]⟩
  | cons f fs' =>
      exact ⟨k.flatMap escChar ++ [34] ++ 58 :: Json.stringify v ++
          44 :: stringifyFields (f :: fs'),
        by simp [stringifyFields, quoteStr]⟩

/-- Every JSON value has positive parser-fuel size. -/
theorem Json.size_pos (j : Json) : 1 ≤ Json.size j := by
  cases j <;> simp [Json.size]

mutual

/-- Parsing a stringified value (followed by a separator or end of input)
recovers the value, given enough fuel. -/
theorem parseValue_stringify (fuel : Nat) (j : Json) (rest : List Nat)
    (hsz : Json.size j ≤ fuel) (hsep : goodSep rest = true) :
    parseValue fuel (Json.stringify j ++ rest) = some (j, rest) := by
  obtain ⟨f, rfl⟩ : ∃ f, fuel = f + 1 :=
    ⟨fuel - 1, by have := Json.size_pos j; omega⟩
  cases j with
  | null =>
      rw [show Json.stringify Json.null = [110, 117, 108, 108] by
        simp [Json.stringify]]
      rw [parseValue]
      rw [show skipWs ([110, 117, 108, 108] ++ rest) =
        110 :: 117 :: 108 :: 108 :: rest by simp [skipWs, isWs]]
      simp [expectLit]
  | bool b =>
      cases b with
      | true =>
          rw [show Json.stringify (Json.bool true) = [116, 114, 117, 101] by
            simp [Json.stringify]]
          rw [parseValue]
          rw [show skipWs ([116, 114, 117, 101] ++ rest) =
            116 :: 114 :: 117 :: 101 :: rest by simp [skipWs, isWs]]
          simp [expectLit]
      | false =>
          rw [show Json.stringify (Json.bool false) = [102, 97, 108, 115, 101] by
            simp [Json.stringify]]
          rw [parseValue]
          rw [show skipWs ([102, 97, 108, 115, 101] ++ rest) =
            102 :: 97 :: 108 :: 115 :: 101 :: rest by simp [skipWs, isWs]]
          simp [expectLit]
  | num n =>
      rw [show Json.stringify (Json.num n) = intToDigits n by
        simp [Json.stringify]]
      obtain ⟨c, t, hct, h1, h2⟩ := natToDigits_head n.natAbs
      by_cases hneg : n < 0
      · rw [intToDigits, if_pos hneg, List.cons_append, parseValue]
        rw [show skipWs (45 :: (natToDigits n.natAbs ++ rest)) =
          45 :: (natToDigits n.natAbs ++ rest) from
          skipWs_cons_of_not_ws _ (by decide)]
        dsimp only
        rw [if_neg (by decide), if_neg (by decide), if_neg (by decide),
          if_neg (by decide), if_neg (by decide), if_neg (by decide)]
        rw [show (45 : Nat) :: (natToDigits n.natAbs ++ rest) =
          intToDigits n ++ rest by rw [intToDigits, if_pos hneg]; rfl]
        rw [parseNumber_intToDigits n rest hsep]
        rfl
      · rw [intToDigits, if_neg hneg, hct, List.cons_append, parseValue]
        rw [show skipWs (c :: (t ++ rest)) = c :: (t ++ rest) from
          skipWs_cons_of_not_ws _ (by simp [isWs]; omega)]
        dsimp only
        rw [if_neg (by omega), if_neg (by omega), if_neg (by omega),
          if_neg (by omega), if_neg (by omega), if_neg (by omega)]
        rw [show c :: (t ++ rest) = intToDigits n ++ rest by
          rw [intToDigits, if_neg hneg, hct]; rfl]
        rw [parseNumber_intToDigits n rest hsep]
        rfl
  | str s =>
      rw [show Json.stringify (Json.str s) ++ rest =
        34 :: (s.flatMap escChar ++ 34 :: rest) by
        simp [Json.stringify, quoteStr]]
      rw [parseValue]
      rw [show skipWs (34 :: (s.flatMap escChar ++ 34 :: rest)) =
        34 :: (s.flatMap escChar ++ 34 :: rest) from
        skipWs_cons_of_not_ws _ (by decide)]
      dsimp only
      rw [if_neg (by decide), if_neg (by decide), if_neg (by decide),
        if_pos rfl]
      rw [parseStrBody_escape]
      rfl
  | arr l =>
      cases l with
      | nil =>
          rw [show Json.stringify (Json.arr []) ++ rest = 91 :: 93 :: rest by
            simp [Json.stringify, stringifyElems]]
          rw [parseValue]
          rw [show skipWs (91 :: 93 :: rest) = 91 :: 93 :: rest from
            skipWs_cons_of_not_ws _ (by decide)]
          dsimp only
          rw [if_neg (by decide), if_neg (by decide), if_neg (by decide),
            if_neg (by decide), if_pos rfl]
          rw [show skipWs (93 :: rest) = 93 :: rest from
            skipWs_cons_of_not_ws _ (by decide)]
          dsimp only
          rw [if_pos rfl]
      | cons j0 l' =>
          obtain ⟨c, t, hct, h1, h2, h3, h4⟩ := stringifyElems_head j0 l'
          rw [show Json.stringify (Json.arr (j0 :: l')) ++ rest =
            91 :: (stringifyElems (j0 :: l') ++ 93 :: rest) by
            simp [Json.stringify]]
          rw [parseValue]
          rw [show skipWs (91 :: (stringifyElems (j0 :: l') ++ 93 :: rest)) =
            91 :: (stringifyElems (j0 :: l') ++ 93 :: rest) from
            skipWs_cons_of_not_ws _ (by decide)]
          dsimp only
          rw [if_neg (by decide), if_neg (by decide), if_neg (by decide),
            if_neg (by decide), if_pos rfl]
          rw [hct, List.cons_append]
          rw [show skipWs (c :: (t ++ 93 :: rest)) = c :: (t ++ 93 :: rest) from
            skipWs_cons_of_not_ws _ h1]
          dsimp only
          rw [if_neg h3]
          rw [show c :: (t ++ 93 :: rest) =
            stringifyElems (j0 :: l') ++ 93 :: rest by rw [hct]; rfl]
          rw [parseElems_stringify f (j0 :: l') rest (by simp)
            (by simp only [Json.size] at hsz; omega)]
          rfl
  | obj fs =>
      cases fs with
      | nil =>
          rw [show Json.stringify (Json.obj []) ++ rest = 123 :: 125 :: rest by
            simp [Json.stringify, stringifyFields]]
          rw [parseValue]
          rw [show skipWs (123 :: 125 :: rest) = 123 :: 125 :: rest from
            skipWs_cons_of_not_ws _ (by decide)]
          dsimp only
          rw [if_neg (by decide), if_neg (by decide), if_neg (by decide),
            if_neg (by decide), if_neg (by decide), if_pos rfl]
          rw [show skipWs (125 :: rest) = 125 :: rest from
            skipWs_cons_of_not_ws _ (by decide)]
          dsimp only
          rw [if_pos rfl]
      | cons kv fs' =>
          obtain ⟨k, v⟩ := kv
          obtain ⟨t, hct⟩ := stringifyFields_head k v fs'
          rw [show Json.stringify (Json.obj ((k, v) :: fs')) ++ rest =
            123 :: (stringifyFields ((k, v) :: fs') ++ 125 :: rest) by
            simp [Json.stringify]]
          rw [parseValue]
          rw [show skipWs (123 :: (stringifyFields ((k, v) :: fs') ++ 125 :: rest)) =
            123 :: (stringifyFields ((k, v) :: fs') ++ 125 :: rest) from
            skipWs_cons_of_not_ws _ (by decide)]
          dsimp only
          rw [if_neg (by decide), if_neg (by decide), if_neg (by decide),
            if_neg (by decide), if_neg (by decide), if_pos rfl]
          rw [hct, List.cons_append]
          rw [show skipWs (34 :: (t ++ 125 :: rest)) = 34 :: (t ++ 125 :: rest)
            from skipWs_cons_of_not_ws _ (by decide)]
          dsimp only
          rw [if_neg (by decide)]
          rw [show (34 : Nat) :: (t ++ 125 :: rest) =
            stringifyFields ((k, v) :: fs') ++ 125 :: rest by rw [hct]; rfl]
          rw [parseFields_stringify f ((k, v) :: fs') rest (by simp)
            (by simp only [Json.size] at hsz; omega)]
          rfl
termination_by (fuel, 0)

/-- Parsing a stringified nonempty element list plus closing bracket
recovers the elements, given enough fuel. -/
theorem parseElems_stringify (fuel : Nat) (l : List Json) (rest : List Nat)
    (hne : l ≠ []) (hsz : sizeElems l ≤ fuel) :
    parseElems fuel (stringifyElems l ++ 93 :: rest) = some (l, rest) := by
  obtain ⟨j0, l', rfl⟩ : ∃ j0 l', l = j0 :: l' := by
    cases l with
    | nil => exact absurd rfl hne
    | cons a b => exact ⟨a, b, rfl⟩
  obtain ⟨f, rfl⟩ : ∃ f, fuel = f + 1 :=
    ⟨fuel - 1, by simp only [sizeElems] at hsz; omega⟩
  cases l' with
  | nil =>
      rw [show stringifyElems [j0] ++ 93 :: rest =
        Json.stringify j0 ++ 93 :: rest by simp [stringifyElems]]
      rw [parseElems]
      rw [parseValue_stringify f j0 (93 :: rest)
        (by simp only [sizeElems] at hsz; omega) (by simp [goodSep])]
      show (match skipWs (93 :: rest) with
        | [] => none
        | c :: r2 =>
            if c = 44 then (parseElems f r2).map (fun p => (j0 :: p.1, p.2))
            else if c = 93 then some ([j0], r2)
            else none) = some ([j0], rest)
      rw [show skipWs (93 :: rest) = 93 :: rest from
        skipWs_cons_of_not_ws _ (by decide)]
      dsimp only
      rw [if_neg (by decide), if_pos rfl]
  | cons j1 l'' =>
      rw [show stringifyElems (j0 :: j1 :: l'') ++ 93 :: rest =
        Json.stringify j0 ++ (44 :: (stringifyElems (j1 :: l'') ++ 93 :: rest))
        by simp [stringifyElems]]
      rw [parseElems]
      rw [parseValue_stringify f j0 _
        (by simp only [sizeElems] at hsz; omega) (by simp [goodSep])]
      show (match skipWs (44 :: (stringifyElems (j1 :: l'') ++ 93 :: rest)) with
        | [] => none
        | c :: r2 =>
            if c = 44 then (parseElems f r2).map (fun p => (j0 :: p.1, p.2))
            else if c = 93 then some ([j0], r2)
            else none) = some (j0 :: j1 :: l'', rest)
      rw [show skipWs (44 :: (stringifyElems (j1 :: l'') ++ 93 :: rest)) =
        44 :: (stringifyElems (j1 :: l'') ++ 93 :: rest) from
        skipWs_cons_of_not_ws _ (by decide)]
      dsimp only
      rw [if_pos rfl]
      rw [parseElems_stringify f (j1 :: l'') rest (by simp)
        (by simp only [sizeElems] at hsz ⊢; omega)]
      rfl
termination_by (fuel, 1)

/-- Parsing a stringified nonempty member list plus closing brace recovers
the members, given enough fuel. -/
theorem parseFields_stringify (fuel : Nat)
    (fs : List (JStr × Json)) (rest : List Nat)
    (hne : fs ≠ []) (hsz : sizeFields fs ≤ fuel) :
    parseFields fuel (stringifyFields fs ++ 125 :: rest) = some (fs, rest) := by
  obtain ⟨k, v, fs', rfl⟩ : ∃ k v fs', fs = (k, v) :: fs' := by
    cases fs with
    | nil => exact absurd rfl hne
    | cons kv b => exact ⟨kv.1, kv.2, b, rfl⟩
  obtain ⟨f, rfl⟩ : ∃ f, fuel = f + 1 :=
    ⟨fuel - 1, by simp only [sizeFields] at hsz; omega⟩
  cases fs' with
  | nil =>
      rw [show stringifyFields [(k, v)] ++ 125 :: rest =
        34 :: (k.flatMap escChar ++ 34 :: (58 :: (Json.stringify v ++ 125 :: rest)))
        by simp [stringifyFields, quoteStr]]
      rw [parseFields]
      rw [show skipWs (34 :: (k.flatMap escChar ++
        34 :: (58 :: (Json.stringify v ++ 125 :: rest)))) =
        34 :: (k.flatMap escChar ++ 34 :: (58 :: (Json.stringify v ++ 125 :: rest)))
        from skipWs_cons_of_not_ws _ (by decide)]
      dsimp only
      rw [if_pos rfl]
      rw [parseStrBody_escape]
      show (match skipWs (58 :: (Json.stringify v ++ 125 :: rest)) with
        | [] => none
        | c2 :: r2 =>
            if c2 = 58 then
              (parseValue f r2).bind (fun pv =>
                match skipWs pv.2 with
                | [] => none
                | c3 :: r4 =>
                    if c3 = 44 then
                      (parseFields f r4).map (fun p => ((k, pv.1) :: p.1, p.2))
                    else if c3 = 125 then some ([(k, pv.1)], r4)
                    else none)
            else none) = some ([(k, v)], rest)
      rw [show skipWs (58 :: (Json.stringify v ++ 125 :: rest)) =
        58 :: (Json.stringify v ++ 125 :: rest) from
        skipWs_cons_of_not_ws _ (by decide)]
      dsimp only
      rw [if_pos rfl]
      rw [parseValue_stringify f v (125 :: rest)
        (by simp only [sizeFields] at hsz; omega) (by simp [goodSep])]
      show (match skipWs (125 :: rest) with
        | [] => none
        | c3 :: r4 =>
            if c3 = 44 then
              (parseFields f r4).map (fun p => ((k, v) :: p.1, p.2))
            else if c3 = 125 then some ([(k, v)], r4)
            else none) = some ([(k, v)], rest)
      rw [show skipWs (125 :: rest) = 125 :: rest from
        skipWs_cons_of_not_ws _ (by decide)]
      dsimp only
      rw [if_neg (by decide), if_pos rfl]
  | cons kv1 fs'' =>
      rw [show stringifyFields ((k, v) :: kv1 :: fs'') ++ 125 :: rest =
        34 :: (k.flatMap escChar ++ 34 :: (58 :: (Json.stringify v ++
          44 :: (stringifyFields (kv1 :: fs'') ++ 125 :: rest))))
        by simp [stringifyFields, quoteStr]]
      rw [parseFields]
      rw [show skipWs (34 :: (k.flatMap escChar ++ 34 :: (58 ::
        (Json.stringify v ++ 44 :: (stringifyFields (kv1 :: fs'') ++
          125 :: rest))))) =
        34 :: (k.flatMap escChar ++ 34 :: (58 :: (Json.stringify v ++
          44 :: (stringifyFields (kv1 :: fs'') ++ 125 :: rest))))
        from skipWs_cons_of_not_ws _ (by decide)]
      dsimp only
      rw [if_pos rfl]
      rw [parseStrBody_escape]
      show (match skipWs (58 :: (Json.stringify v ++
        44 :: (stringifyFields (kv1 :: fs'') ++ 125 :: rest))) with
        | [] => none
        | c2 :: r2 =>
            if c2 = 58 then
              (parseValue f r2).bind (fun pv =>
                match skipWs pv.2 with
                | [] => none
                | c3 :: r4 =>
                    if c3 = 44 then
                      (parseFields f r4).map (fun p => ((k, pv.1) :: p.1, p.2))
                    else if c3 = 125 then some ([(k, pv.1)], r4)
                    else none)
            else none) = some ((k, v) :: kv1 :: fs'', rest)
      rw [show skipWs (58 :: (Json.stringify v ++
        44 :: (stringifyFields (kv1 :: fs'') ++ 125 :: rest))) =
        58 :: (Json.stringify v ++
          44 :: (stringifyFields (kv1 :: fs'') ++ 125 :: rest)) from
        skipWs_cons_of_not_ws _ (by decide)]
      dsimp only
      rw [if_pos rfl]
      rw [parseValue_stringify f v _
        (by simp only [sizeFields] at hsz; omega) (by simp [goodSep])]
      show (match skipWs (44 :: (stringifyFields (kv1 :: fs'') ++ 125 :: rest)) with
        | [] => none
        | c3 :: r4 =>
            if c3 = 44 then
              (parseFields f r4).map (fun p => ((k, v) :: p.1, p.2))
            else if c3 = 125 then some ([(k, v)], r4)
            else none) = some ((k, v) :: kv1 :: fs'', rest)
      rw [show skipWs (44 :: (stringifyFields (kv1 :: fs'') ++ 125 :: rest)) =
        44 :: (stringifyFields (kv1 :: fs'') ++ 125 :: rest) from
        skipWs_cons_of_not_ws _ (by decide)]
      dsimp only
      rw [if_pos rfl]
      rw [parseFields_stringify f (kv1 :: fs'') rest (by simp)
        (by simp only [sizeFields] at hsz ⊢; omega)]
      rfl
termination_by (fuel, 1)

end

mutual

/-- The fuel size of a value is at most its stringified length. -/
theorem size_le_len (j : Json) : Json.size j ≤ (Json.stringify j).length := by
  cases j with
  | null => simp [Json.size, Json.stringify]
  | bool b => cases b <;> simp [Json.size, Json.stringify]
  | num n =>
      obtain ⟨c, t, hct, _, _⟩ := natToDigits_head n.natAbs
      by_cases hneg : n < 0 <;>
        simp [Json.size, Json.stringify, intToDigits, hneg, hct]
  | str s => simp [Json.size, Json.stringify, quoteStr]
  | arr l =>
      have := sizeElems_le_len l
      simp only [Json.size, Json.stringify, List.length_cons, List.length_append]
      simp
      omega
  | obj fs =>
      have := sizeFields_le_len fs
      simp only [Json.size, Json.stringify, List.length_cons, List.length_append]
      simp
      omega

/-- Element-list fuel size against stringified length. -/
theorem sizeElems_le_len (l : List Json) :
    sizeElems l ≤ (stringifyElems l).length + 1 := by
  cases l with
  | nil => simp [sizeElems]
  | cons j rest =>
      cases rest with
      | nil =>
          have := size_le_len j
          simp only [sizeElems, stringifyElems]
          omega
      | cons j1 rest' =>
          have h1 := size_le_len j
          have h2 := sizeElems_le_len (j1 :: rest')
          simp only [sizeElems] at h2 ⊢
          simp only [stringifyElems, List.length_append, List.length_cons]
          omega

/-- Member-list fuel size against stringified length. -/
theorem sizeFields_le_len (fs : List (JStr × Json)) :
    sizeFields fs ≤ (stringifyFields fs).length + 1 := by
  cases fs with
  | nil => simp [sizeFields]
  | cons kv rest =>
      obtain ⟨k, v⟩ := kv
      cases rest with
      | nil =>
          have := size_le_len v
          simp only [sizeFields, stringifyFields, List.length_append,
            List.length_cons]
          omega
      | cons kv1 rest' =>
          have h1 := size_le_len v
          have h2 := sizeFields_le_len (kv1 :: rest')
          simp only [sizeFields] at h2 ⊢
          simp only [stringifyFields, List.length_append, List.length_cons]
          omega

end

/-- Specialisation of the round trip with empty remainder. -/
theorem parseValue_stringify_nil (fuel : Nat) (j : Json)
    (hsz : Json.size j ≤ fuel) :
    parseValue fuel (Json.stringify j) = some (j, []) := by
  have h := parseValue_stringify fuel j [] hsz rfl
  simpa using h

/-- Parsing inverts stringification: `jsonParse` after `Json.stringify`. -/
theorem jsonParse_stringify (j : Json) :
    jsonParse (Json.stringify j) = some j := by
  unfold jsonParse
  rw [parseValue_stringify_nil ((Json.stringify j).length + 1) j
    (by have := size_le_len j; omega)]
  rfl

/-! ## Transport round trips -/

/-- UTF-8 bytes of a legal scalar value are bytes. -/
theorem utf8Encode_lt_256 (c : Nat) (h : c < 1114112) :
    ∀ b ∈ utf8Encode c, b < 256 := by
  intro b hb
  unfold utf8Encode at hb
  split at hb
  · simp at hb; omega
  · split at hb
    · simp at hb
      rcases hb with hb | hb <;> omega
    · split at hb
      · simp at hb
        rcases hb with hb | hb | hb <;> omega
      · simp at hb
        rcases hb with hb | hb | hb | hb <;> omega

/-- Every encoded character occupies at least one byte. -/
theorem utf8Encode_length_pos (c : Nat) : 1 ≤ (utf8Encode c).length := by
  unfold utf8Encode
  split_ifs <;> simp

/-- A string is no longer than its UTF-8 encoding. -/
theorem length_le_utf8EncodeStr (s : JStr) :
    s.length ≤ (utf8EncodeStr s).length := by
  induction s with
  | nil => simp [utf8EncodeStr]
  | cons c s ih =>
      have h1 := utf8Encode_length_pos c
      have hstep : utf8EncodeStr (c :: s) = utf8Encode c ++ utf8EncodeStr s := by
        simp [utf8EncodeStr]
      rw [hstep]
      simp only [List.length_cons, List.length_append]
      omega

/-- Fuel-based UTF-8 decoding inverts encoding on legal scalar values. -/
theorem utf8DecodeAux_encodeStr :
    ∀ (s : JStr) (fuel : Nat), s.length ≤ fuel → (∀ c ∈ s, c < 1114112) →
      utf8DecodeAux fuel (utf8EncodeStr s) = some s := by
  intro s
  induction s with
  | nil =>
      intro fuel _ _
      rw [show utf8EncodeStr [] = [] by rfl]
      cases fuel <;> rfl
  | cons c s ih =>
      intro fuel hlen hval
      have hc : c < 1114112 := hval c (List.mem_cons_self c s)
      have hval' : ∀ x ∈ s, x < 1114112 :=
        fun x hx => hval x (List.mem_cons_of_mem c hx)
      obtain ⟨f, rfl⟩ : ∃ f, fuel = f + 1 :=
        ⟨fuel - 1, by simp at hlen; omega⟩
      have hlen' : s.length ≤ f := by simp at hlen; omega
      rw [show utf8EncodeStr (c :: s) = utf8Encode c ++ utf8EncodeStr s by
        simp [utf8EncodeStr]]
      by_cases h1 : c < 128
      · rw [show utf8Encode c = [c] by rw [utf8Encode, if_pos h1]]
        rw [List.cons_append, List.nil_append, utf8DecodeAux]
        rw [if_pos h1, ih f hlen' hval']
        rfl
      · by_cases h2 : c < 2048
        · rw [show utf8Encode c = [192 + c / 64, 128 + c % 64] by
            rw [utf8Encode, if_neg h1, if_pos h2]]
          rw [List.cons_append, List.cons_append, List.nil_append,
            utf8DecodeAux]
          rw [if_neg (by omega), if_neg (by omega), if_pos (by omega)]
          rw [utf8Dec2]
          rw [if_pos (by omega), if_pos (by omega)]
          simp only [Option.some_bind]
          have hv : (192 + c / 64 - 192) * 64 + (128 + c % 64 - 128) = c := by
            omega
          rw [hv, ih f hlen' hval']
          rfl
        · by_cases h3 : c < 65536
          · rw [show utf8Encode c =
              [224 + c / 4096, 128 + (c / 64) % 64, 128 + c % 64] by
              rw [utf8Encode, if_neg h1, if_neg h2, if_pos h3]]
            rw [List.cons_append, List.cons_append, List.cons_append,
              List.nil_append, utf8DecodeAux]
            rw [if_neg (by omega), if_neg (by omega), if_neg (by omega),
              if_pos (by omega)]
            rw [utf8Dec3]
            rw [if_pos (by omega), if_pos (by omega)]
            simp only [Option.some_bind]
            have hv : ((224 + c / 4096 - 224) * 64 + (128 + c / 64 % 64 - 128)) *
                64 + (128 + c % 64 - 128) = c := by
              omega
            rw [hv, ih f hlen' hval']
            rfl
          · rw [show utf8Encode c =
              [240 + c / 262144, 128 + (c / 4096) % 64, 128 + (c / 64) % 64,
                128 + c % 64] by
              rw [utf8Encode, if_neg h1, if_neg h2, if_neg h3]]
            rw [List.cons_append, List.cons_append, List.cons_append,
              List.cons_append, List.nil_append, utf8DecodeAux]
            rw [if_neg (by omega), if_neg (by omega), if_neg (by omega),
              if_neg (by omega), if_pos (by omega)]
            rw [utf8Dec4]
            rw [if_pos (by omega), if_pos (by omega)]
            simp only [Option.some_bind]
            have hv : (((240 + c / 262144 - 240) * 64 +
                (128 + c / 4096 % 64 - 128)) * 64 +
                (128 + c / 64 % 64 - 128)) * 64 + (128 + c % 64 - 128) = c := by
              omega
            rw [hv, ih f hlen' hval']
            rfl

/-- UTF-8 decoding inverts encoding on legal scalar values. -/
theorem utf8Decode_encodeStr (s : JStr) (h : ∀ c ∈ s, c < 1114112) :
    utf8Decode (utf8EncodeStr s) = some s :=
  utf8DecodeAux_encodeStr s (utf8EncodeStr s).length
    (length_le_utf8EncodeStr s) h

theorem hexVal_hexDigitU : ∀ n : Nat, n < 16 → hexVal (hexDigitU n) = some n := by
  decide

/-- Facts about unreserved characters needed below. -/
theorem isUnreserved_facts (b : Nat) (h : isUnreserved b = true) :
    b < 128 ∧ b ≠ 37 := by
  simp only [isUnreserved, Bool.or_eq_true, Bool.and_eq_true,
    decide_eq_true_eq] at h
  omega

/-- Percent-decoding inverts percent-encoding on byte lists. -/
theorem percentDecode_encodeBytes :
    ∀ bs : List Nat, (∀ b ∈ bs, b < 256) →
      percentDecodeBytes (percentEncodeBytes bs) = some bs := by
  intro bs
  induction bs with
  | nil => intro _; simp [percentEncodeBytes, percentDecodeBytes]
  | cons b bs ih =>
      intro h
      have hb : b < 256 := h b (List.mem_cons_self b bs)
      have hrec := ih (fun x hx => h x (List.mem_cons_of_mem b hx))
      have hstep : percentEncodeBytes (b :: bs) =
          (if isUnreserved b then [b]
            else [37, hexDigitU (b / 16), hexDigitU (b % 16)]) ++
            percentEncodeBytes bs := by
        simp [percentEncodeBytes]
      rw [hstep]
      by_cases hu : isUnreserved b = true
      · obtain ⟨hlt, hne⟩ := isUnreserved_facts b hu
        rw [if_pos hu, List.cons_append, List.nil_append, percentDecodeBytes]
        rw [if_neg hne]
        rw [show utf8Encode b = [b] by rw [utf8Encode, if_pos (by omega)]]
        rw [hrec]
        rfl
      · rw [if_neg hu, List.cons_append, List.cons_append, List.cons_append,
          List.nil_append, percentDecodeBytes]
        rw [if_pos rfl, percentDecodeHex]
        rw [hexVal_hexDigitU _ (by omega), hexVal_hexDigitU _ (by omega)]
        show (fun bs2 => (b / 16 * 16 + b % 16) :: bs2) <$>
            percentDecodeBytes (percentEncodeBytes bs) = some (b :: bs)
        rw [hrec]
        have hv : b / 16 * 16 + b % 16 = b := by omega
        simp [hv]

/-- Characters emitted by the percent encoder are ASCII. -/
theorem percentEncodeBytes_lt_256 (bs : List Nat) (h : ∀ b ∈ bs, b < 256) :
    ∀ c ∈ percentEncodeBytes bs, c < 256 := by
  intro c hc
  simp only [percentEncodeBytes, List.mem_flatMap] at hc
  obtain ⟨b, hb, hmem⟩ := hc
  split at hmem
  · rename_i hu
    obtain ⟨hlt, _⟩ := isUnreserved_facts b hu
    simp at hmem
    omega
  · have h16 : b / 16 < 16 := by have := h b hb; omega
    have hd : ∀ n : Nat, n < 16 → hexDigitU n < 256 := by decide
    simp at hmem
    rcases hmem with hm | hm | hm
    · omega
    · have := hd (b / 16) (by omega)
      omega
    · have := hd (b % 16) (by omega)
      omega

theorem b64Dec_b64Char : ∀ n : Nat, n < 64 → b64Dec (b64Char n) = some n := by
  decide

theorem b64Char_ne_61 : ∀ n : Nat, n < 64 → b64Char n ≠ 61 := by
  decide

/-- Base64 decoding inverts encoding on byte lists. -/
theorem b64DecodeGroups_encode :
    ∀ bs : List Nat, (∀ b ∈ bs, b < 256) →
      b64DecodeGroups (b64Encode bs) = some bs := by
  intro bs
  induction bs using b64Encode.induct with
  | case1 => intro _; rfl
  | case2 b1 =>
      intro h
      have hb1 : b1 < 256 := h b1 (by simp)
      rw [b64Encode, b64DecodeGroups]
      rw [if_pos ⟨rfl, rfl, rfl⟩]
      rw [b64Dec_b64Char _ (by omega), b64Dec_b64Char _ (by omega)]
      simp
      omega
  | case3 b1 b2 =>
      intro h
      have hb1 : b1 < 256 := h b1 (by simp)
      have hb2 : b2 < 256 := h b2 (by simp)
      rw [b64Encode, b64DecodeGroups]
      rw [if_neg (by
        rintro ⟨h3, -, -⟩
        exact b64Char_ne_61 _ (by omega) h3)]
      rw [if_pos ⟨rfl, rfl⟩]
      rw [b64Dec_b64Char _ (by omega), b64Dec_b64Char _ (by omega),
        b64Dec_b64Char _ (by omega)]
      simp
      constructor <;> omega
  | case4 b1 b2 b3 rest ih =>
      intro h
      have hb1 : b1 < 256 := h b1 (by simp)
      have hb2 : b2 < 256 := h b2 (by simp)
      have hb3 : b3 < 256 := h b3 (by simp)
      have hrec := ih (fun x hx => h x (by simp [hx]))
      rw [b64Encode, b64DecodeGroups]
      rw [if_neg (by
        rintro ⟨h3, -, -⟩
        exact b64Char_ne_61 _ (by omega) h3)]
      rw [if_neg (by
        rintro ⟨h4, -⟩
        exact b64Char_ne_61 _ (by omega) h4)]
      rw [b64Dec_b64Char _ (by omega), b64Dec_b64Char _ (by omega),
        b64Dec_b64Char _ (by omega), b64Dec_b64Char _ (by omega)]
      show ((fun bs2 =>
          (b1 / 4 * 4 + (b1 % 4 * 16 + b2 / 16) / 16) ::
          ((b1 % 4 * 16 + b2 / 16) % 16 * 16 + (b2 % 16 * 4 + b3 / 64) / 4) ::
          ((b2 % 16 * 4 + b3 / 64) % 4 * 64 + b3 % 64) :: bs2) <$>
          b64DecodeGroups (b64Encode rest)) = some (b1 :: b2 :: b3 :: rest)
      rw [hrec]
      have e1 : b1 / 4 * 4 + (b1 % 4 * 16 + b2 / 16) / 16 = b1 := by omega
      have e2 : (b1 % 4 * 16 + b2 / 16) % 16 * 16 +
          (b2 % 16 * 4 + b3 / 64) / 4 = b2 := by omega
      have e3 : (b2 % 16 * 4 + b3 / 64) % 4 * 64 + b3 % 64 = b3 := by omega
      simp [e1, e2, e3]

/-- Decoding inverts encoding: `atob` after `btoa` on binary strings. -/
theorem atob_btoa (s : List Nat) (h : ∀ b ∈ s, b < 256) :
    btoa s = some (b64Encode s) ∧ atob (b64Encode s) = some s := by
  constructor
  · rw [btoa, if_pos (by simpa [List.all_eq_true] using h)]
  · exact b64DecodeGroups_encode s h

/-! ## Locating the `#trip=` marker -/

/-- Whether `#trip=` occurs anywhere in the string. -/
def containsMarker (l : List Nat) : Bool :=
  match l with
  | [] => false
  | c :: rest =>
      decide ((c :: rest).take 6 = markerStr) || containsMarker rest

theorem findMarker_none (l : List Nat) (h : containsMarker l = false) :
    findMarker l = none := by
  induction l with
  | nil => rfl
  | cons c rest ih =>
      rw [containsMarker] at h
      simp only [Bool.or_eq_false_iff, decide_eq_false_iff_not] at h
      rw [findMarker, if_neg h.1]
      exact ih h.2

/-- Applying `findMarker` to a string whose marker-free prefix is followed by the
marker returns exactly the suffix after the marker. -/
theorem findMarker_append (tok : List Nat) :
    ∀ pre : List Nat, containsMarker pre = false →
      findMarker (pre ++ markerStr ++ tok) = some tok := by
  intro pre
  induction pre with
  | nil =>
      intro _
      rw [List.nil_append]
      rw [show markerStr ++ tok =
        35 :: ([116, 114, 105, 112, 61] ++ tok) by simp [markerStr]]
      rw [findMarker]
      rw [if_pos (by simp [markerStr])]
      simp [markerStr]
  | cons c pre ih =>
      intro h
      rw [containsMarker] at h
      simp only [Bool.or_eq_false_iff, decide_eq_false_iff_not] at h
      have hfull : (c :: pre) ++ markerStr ++ tok =
          c :: (pre ++ (markerStr ++ tok)) := by
        simp
      have hne : (c :: (pre ++ (markerStr ++ tok))).take 6 ≠ markerStr := by
        by_cases hlen : 5 ≤ pre.length
        · have heq : (c :: (pre ++ (markerStr ++ tok))).take 6 =
              (c :: pre).take 6 := by
            simp [List.take_append_of_le_length hlen]
          rw [heq]
          exact h.1
        · intro hEq
          have hc2 : (pre ++ (markerStr ++ tok)).take 5 =
              [116, 114, 105, 112, 61] := by
            have := congrArg List.tail hEq
            simpa [markerStr] using this
          have h35 : (35 : Nat) ∈ (pre ++ (markerStr ++ tok)).take 5 := by
            rw [List.take_append_eq_append_take]
            refine List.mem_append.mpr (Or.inr ?_)
            rw [show markerStr ++ tok =
              35 :: ([116, 114, 105, 112, 61] ++ tok) by simp [markerStr]]
            cases hk : 5 - pre.length with
            | zero => omega
            | succ n =>
                rw [List.take_succ_cons]
                exact List.mem_cons_self _ _
          rw [hc2] at h35
          simp at h35
      rw [hfull, findMarker, if_neg hne, ← List.append_assoc]
      exact ih h.2

/-! ## Legal-scalar bound on stringified output -/

mutual

/-- All string characters of a JSON value are legal Unicode scalars. -/
def Json.validChars : Json → Bool
  | .null => true
  | .bool _ => true
  | .num _ => true
  | .str s => s.all (fun c => c < 1114112)
  | .arr l => validCharsElems l
  | .obj fs => validCharsFields fs

/-- Validity `Json.validChars` over an element list. -/
def validCharsElems : List Json → Bool
  | [] => true
  | j :: rest => Json.validChars j && validCharsElems rest

/-- Validity `Json.validChars` over a member list. -/
def validCharsFields : List (JStr × Json) → Bool
  | [] => true
  | (k, v) :: rest =>
      k.all (fun c => c < 1114112) && Json.validChars v &&
        validCharsFields rest

end

theorem natToDigits_mem_range (m : Nat) :
    ∀ c ∈ natToDigits m, 48 ≤ c ∧ c ≤ 57 := by
  induction m using Nat.strong_induction_on with
  | _ m ih =>
      intro c hc
      by_cases h : m < 10
      · rw [natToDigits, if_pos h] at hc
        simp at hc
        omega
      · rw [natToDigits, if_neg h] at hc
        rw [List.mem_append] at hc
        rcases hc with hc | hc
        · exact ih (m / 10) (Nat.div_lt_self (by omega) (by omega)) c hc
        · simp at hc
          omega

theorem escChar_lt (c : Nat) (h : c < 1114112) :
    ∀ x ∈ escChar c, x < 1114112 := by
  intro x hx
  have hd : ∀ n : Nat, n < 16 → hexDigitL n < 128 := by decide
  unfold escChar at hx
  split_ifs at hx <;> simp at hx <;> try omega
  have d1 := hd (c / 16) (by omega)
  have d2 := hd (c % 16) (by omega)
  rcases hx with hx | hx | hx | hx | hx <;> omega

theorem quoteStr_lt (s : JStr) (h : ∀ c ∈ s, c < 1114112) :
    ∀ x ∈ quoteStr s, x < 1114112 := by
  intro x hx
  rcases List.mem_append.mp hx with hx | hx
  · rcases List.mem_cons.mp hx with hx | hx
    · omega
    · obtain ⟨y, hy, hmem⟩ := List.mem_flatMap.mp hx
      exact escChar_lt y (h y hy) x hmem
  · rcases List.mem_singleton.mp hx with rfl
    omega

mutual

/-- Stringified output of a valid value stays within legal scalars. -/
theorem stringify_chars_lt (j : Json) (hv : Json.validChars j = true) :
    ∀ c ∈ Json.stringify j, c < 1114112 := by
  cases j with
  | null => intro c hc; simp [Json.stringify] at hc; omega
  | bool b =>
      intro c hc
      cases b <;> simp [Json.stringify] at hc <;> omega
  | num n =>
      intro c hc
      simp only [Json.stringify, intToDigits] at hc
      split at hc
      · rcases List.mem_cons.mp hc with hc | hc
        · omega
        · have := natToDigits_mem_range n.natAbs c hc
          omega
      · have := natToDigits_mem_range n.natAbs c hc
        omega
  | str s =>
      intro c hc
      simp only [Json.stringify] at hc
      simp only [Json.validChars, List.all_eq_true, decide_eq_true_eq] at hv
      exact quoteStr_lt s hv c hc
  | arr l =>
      intro c hc
      rw [show Json.stringify (Json.arr l) =
        91 :: stringifyElems l ++ [93] from rfl] at hc
      simp only [Json.validChars] at hv
      rcases List.mem_append.mp hc with hc | hc
      · rcases List.mem_cons.mp hc with hc | hc
        · omega
        · exact stringifyElems_chars_lt l hv c hc
      · rcases List.mem_singleton.mp hc with rfl
        omega
  | obj fs =>
      intro c hc
      rw [show Json.stringify (Json.obj fs) =
        123 :: stringifyFields fs ++ [125] from rfl] at hc
      simp only [Json.validChars] at hv
      rcases List.mem_append.mp hc with hc | hc
      · rcases List.mem_cons.mp hc with hc | hc
        · omega
        · exact stringifyFields_chars_lt fs hv c hc
      · rcases List.mem_singleton.mp hc with rfl
        omega

/-- Character bound for stringified element lists. -/
theorem stringifyElems_chars_lt (l : List Json)
    (hv : validCharsElems l = true) :
    ∀ c ∈ stringifyElems l, c < 1114112 := by
  cases l with
  | nil => intro c hc; simp [stringifyElems] at hc
  | cons j rest =>
      simp only [validCharsElems, Bool.and_eq_true] at hv
      cases rest with
      | nil =>
          intro c hc
          rw [show stringifyElems [j] = Json.stringify j from rfl] at hc
          exact stringify_chars_lt j hv.1 c hc
      | cons j1 rest' =>
          intro c hc
          rw [show stringifyElems (j :: j1 :: rest') =
            Json.stringify j ++ 44 :: stringifyElems (j1 :: rest') from rfl]
            at hc
          rcases List.mem_append.mp hc with hc | hc
          · exact stringify_chars_lt j hv.1 c hc
          · rcases List.mem_cons.mp hc with hc | hc
            · omega
            · exact stringifyElems_chars_lt (j1 :: rest') hv.2 c hc

/-- Character bound for stringified member lists. -/
theorem stringifyFields_chars_lt (fs : List (JStr × Json))
    (hv : validCharsFields fs = true) :
    ∀ c ∈ stringifyFields fs, c < 1114112 := by
  cases fs with
  | nil => intro c hc; simp [stringifyFields] at hc
  | cons kv rest =>
      obtain ⟨k, v⟩ := kv
      simp only [validCharsFields, Bool.and_eq_true, List.all_eq_true,
        decide_eq_true_eq] at hv
      cases rest with
      | nil =>
          intro c hc
          rw [show stringifyFields [(k, v)] =
            quoteStr k ++ 58 :: Json.stringify v from rfl] at hc
          rcases List.mem_append.mp hc with hc | hc
          · exact quoteStr_lt k hv.1.1 c hc
          · rcases List.mem_cons.mp hc with hc | hc
            · omega
            · exact stringify_chars_lt v hv.1.2 c hc
      | cons kv1 rest' =>
          intro c hc
          rw [show stringifyFields ((k, v) :: kv1 :: rest') =
            quoteStr k ++ 58 :: Json.stringify v ++
              44 :: stringifyFields (kv1 :: rest') from rfl] at hc
          rcases List.mem_append.mp hc with hc | hc
          · rcases List.mem_append.mp hc with hc | hc
            · exact quoteStr_lt k hv.1.1 c hc
            · rcases List.mem_cons.mp hc with hc | hc
              · omega
              · exact stringify_chars_lt v hv.1.2 c hc
          · rcases List.mem_cons.mp hc with hc | hc
            · omega
            · exact stringifyFields_chars_lt (kv1 :: rest') hv.2 c hc

end

/-! ## The trip as a JSON value -/

/-- Character codes of a string literal. -/
def jstr (s : String) : JStr :=
  s.data.map Char.toNat

/-- JSON image of a `{start, end}` date range. -/
def rangeToJson (r : DateRange) : Json :=
  Json.obj [(jstr "start", Json.str r.start), (jstr "end", Json.str r.«end»)]

/-- JSON image of a participant record. -/
def participantToJson (p : Participant) : Json :=
  Json.obj [
    (jstr "name", Json.str p.name),
    (jstr "availableRanges", Json.arr (p.availableRanges.map rangeToJson)),
    (jstr "maxDays", p.maxDays.elim Json.null Json.num),
    (jstr "maxWeeks", p.maxWeeks.elim Json.null Json.num),
    (jstr "completed", Json.bool p.completed),
    (jstr "departureCity", p.departureCity.elim Json.null Json.str),
    (jstr "nationality", p.nationality.elim Json.null Json.str),
    (jstr "interests", Json.arr (p.interests.map Json.str))]

/-- JSON image of a destination option. -/
def destinationToJson (d : DestinationOption) : Json :=
  Json.obj [
    (jstr "id", Json.str d.id),
    (jstr "countries", Json.arr (d.countries.map Json.str)),
    (jstr "votes", Json.obj (d.votes.map (fun kv => (kv.1, Json.num kv.2))))]

/-- JSON image of a trip, in the field order `createTrip` creates.
Deep equality of a decoded plain object with a trip value is equality of
their JSON images. -/
def tripToJson (t : Trip) : Json :=
  Json.obj [
    (jstr "id", Json.str t.id),
    (jstr "name", Json.str t.name),
    (jstr "participants", Json.arr (t.participants.map participantToJson)),
    (jstr "destinations", Json.arr (t.destinations.map destinationToJson)),
    (jstr "createdAt", Json.num t.createdAt),
    (jstr "currentUser", t.currentUser.elim Json.null Json.str),
    (jstr "isOwner", Json.bool t.isOwner)]

/-- Method `TripState.encode(trip)` on a trip value. -/
def encode (baseUrl : List Nat) (trip : Trip) : Option (List Nat) :=
  encodeJson baseUrl (tripToJson trip)

/-! ## Transport claim theorems -/

/-- Decoding inverts encoding: `decode` after `encodeJson` for every JSON value with legal string
scalars, for every base url not containing the marker. -/
theorem decode_encodeJson (baseUrl : List Nat) (j : Json)
    (hbase : containsMarker baseUrl = false)
    (hv : Json.validChars j = true) :
    (encodeJson baseUrl j).bind decode = some j := by
  have hchars : ∀ c ∈ Json.stringify j, c < 1114112 := stringify_chars_lt j hv
  have hbytes : ∀ b ∈ utf8EncodeStr (Json.stringify j), b < 256 := by
    intro b hb
    simp only [utf8EncodeStr, List.mem_flatMap] at hb
    obtain ⟨c, hc, hmem⟩ := hb
    exact utf8Encode_lt_256 c (hchars c hc) b hmem
  have hasc : ∀ c ∈ encodeURIComponent (Json.stringify j), c < 256 :=
    percentEncodeBytes_lt_256 _ hbytes
  obtain ⟨hbtoa, hatob⟩ := atob_btoa (encodeURIComponent (Json.stringify j)) hasc
  unfold encodeJson
  rw [hbtoa]
  show decode (baseUrl ++ markerStr ++
    b64Encode (encodeURIComponent (Json.stringify j))) = some j
  unfold decode
  rw [findMarker_append _ baseUrl hbase]
  show (atob (b64Encode (encodeURIComponent (Json.stringify j)))).bind
    (fun bin => (decodeURIComponent bin).bind jsonParse) = some j
  rw [hatob]
  show (decodeURIComponent (encodeURIComponent (Json.stringify j))).bind
    jsonParse = some j
  unfold decodeURIComponent encodeURIComponent
  rw [percentDecode_encodeBytes _ hbytes]
  show (utf8Decode (utf8EncodeStr (Json.stringify j))).bind jsonParse = some j
  rw [utf8Decode_encodeStr _ hchars]
  show jsonParse (Json.stringify j) = some j
  exact jsonParse_stringify j

/-- C2: for every trip whose strings are legal Unicode and every base url
free of the `#trip=` marker (true of every `origin + pathname`),
`decode(encode(trip))` succeeds and returns the trip's JSON value —
the decoded plain object is deep-equal to the trip. -/
theorem C2_decode_encode_roundtrip (baseUrl : List Nat) (trip : Trip)
    (hbase : containsMarker baseUrl = false)
    (hv : (tripToJson trip).validChars = true) :
    (encode baseUrl trip).bind decode = some (tripToJson trip) :=
  decode_encodeJson baseUrl (tripToJson trip) hbase hv

/-- A concrete trip exercising every field shape. -/
def tripC2 : Trip where
  id := jstr "a1b2c3d4"
  name := jstr "Summer trip"
  participants :=
    [{ name := jstr "Alice"
       availableRanges := [⟨jstr "2024-06-01", jstr "2024-06-10"⟩]
       maxDays := some 7
       maxWeeks := none
       completed := true
       departureCity := some (jstr "Paris")
       nationality := none
       interests := [jstr "beach"] },
      { name := jstr "Bob"
        availableRanges := []
        maxDays := none
        maxWeeks := some 2
        completed := false
        departureCity := none
        nationality := some (jstr "FR")
        interests := [] }]
  destinations := [⟨jstr "d1", [jstr "Portugal"], [(jstr "Alice", 1)]⟩]
  createdAt := 1718000000000
  currentUser := some (jstr "Alice")
  isOwner := true

/-- Closed evaluation witness for C2 at a concrete trip and base url. -/
theorem C2_witness :
    (encode (jstr "https://x/") tripC2).bind decode =
      some (tripToJson tripC2) :=
  C2_decode_encode_roundtrip (jstr "https://x/") tripC2 (by decide) (by decide)

/-- C7: `decode` returns `null` on a url without the `#trip=` marker, and
on a url with the marker it returns exactly the result of running the
token suffix through `atob`, `decodeURIComponent` and `JSON.parse` — so
every malformed token yields `null` (each stage propagates failure) and a
valid token yields the decoded trip; prefix hash content is ignored.
`decode` is a total function into `Option`: it never throws. -/
theorem C7_decode_malformed_null (url pre tok : List Nat) :
    (containsMarker url = false → decode url = none) ∧
    (containsMarker pre = false →
      decode (pre ++ markerStr ++ tok) =
        (atob tok).bind (fun bin => (decodeURIComponent bin).bind jsonParse)) ∧
    (containsMarker pre = false → atob tok = none →
      decode (pre ++ markerStr ++ tok) = none) := by
  refine ⟨?_, ?_, ?_⟩
  · intro h
    unfold decode
    rw [findMarker_none url h]
    rfl
  · intro h
    unfold decode
    rw [findMarker_append tok pre h]
    rfl
  · intro h hatob
    unfold decode
    rw [findMarker_append tok pre h]
    show (atob tok).bind (fun bin => (decodeURIComponent bin).bind jsonParse) =
      none
    rw [hatob]
    rfl

/-- Closed evaluation witness for C7 at the malformed-link scenario
`https://x/#trip=not-valid-base64`. -/
theorem C7_witness :
    decode (jstr "https://x/" ++ markerStr ++ jstr "not-valid-base64") =
      none :=
  (C7_decode_malformed_null
      (jstr "https://x/" ++ markerStr ++ jstr "not-valid-base64")
      (jstr "https://x/") (jstr "not-valid-base64")).2.2
    (by decide) (by decide)

/-! ## Recommendation intake (`app.parseRecommendations`)

The markdown-fence stripping regexes (global replace of a triple-backtick
`json` fence with trailing whitespace, then of a bare triple-backtick fence
with trailing whitespace) are modelled as left-to-right scans; the `\s` and
`trim` whitespace is modelled by the common whitespace characters. -/

/-- JS whitespace (the characters relevant to `\s` and `trim`). -/
def isJsWs (c : Nat) : Bool :=
  c = 32 || c = 9 || c = 10 || c = 11 || c = 12 || c = 13 || c = 160

/-- Drop leading JS whitespace. -/
def dropJsWs : List Nat → List Nat
  | [] => []
  | c :: rest => if isJsWs c then dropJsWs rest else c :: rest

/-- ASCII lower-casing (for the case-insensitive fence match). -/
def lowerAscii (c : Nat) : Nat :=
  if 65 ≤ c ∧ c ≤ 90 then c + 32 else c

/-- Does the string start with a backtick-backtick-backtick `json` fence
(case-insensitive)? -/
def isJsonFenceAt (l : List Nat) : Bool :=
  match l with
  | c1 :: c2 :: c3 :: c4 :: c5 :: c6 :: c7 :: _ =>
      c1 = 96 && c2 = 96 && c3 = 96 && lowerAscii c4 = 106 &&
        lowerAscii c5 = 115 && lowerAscii c6 = 111 && lowerAscii c7 = 110
  | _ => false

/-- Does the string start with a bare triple-backtick fence? -/
def isBareFenceAt (l : List Nat) : Bool :=
  match l with
  | 96 :: 96 :: 96 :: _ => true
  | _ => false

/-- Remove every `json` fence and its trailing whitespace (fuel-based scan;
the list shrinks every step, so length fuel suffices). -/
def stripJsonFencesAux : Nat → List Nat → List Nat
  | 0, l => l
  | _, [] => []
  | fuel + 1, c :: rest =>
      if isJsonFenceAt (c :: rest) then
        stripJsonFencesAux fuel (dropJsWs ((c :: rest).drop 7))
      else c :: stripJsonFencesAux fuel rest

/-- First `replace` pass of `parseRecommendations`. -/
def stripJsonFences (l : List Nat) : List Nat :=
  stripJsonFencesAux l.length l

/-- Remove every bare fence and its trailing whitespace. -/
def stripBareFencesAux : Nat → List Nat → List Nat
  | 0, l => l
  | _, [] => []
  | fuel + 1, c :: rest =>
      if isBareFenceAt (c :: rest) then
        stripBareFencesAux fuel (dropJsWs ((c :: rest).drop 3))
      else c :: stripBareFencesAux fuel rest

/-- Second `replace` pass of `parseRecommendations`. -/
def stripBareFences (l : List Nat) : List Nat :=
  stripBareFencesAux l.length l

/-- Method `trim()`. -/
def trimJs (l : List Nat) : List Nat :=
  dropJsWs ((dropJsWs l.reverse).reverse)

/-- The scan `indexOf` for an opening brace: drop everything before the first opening brace,
failing when there is none. -/
def dropToBrace : List Nat → Option (List Nat)
  | [] => none
  | c :: rest => if c = 123 then some (c :: rest) else dropToBrace rest

/-- The brace-counting extraction loop: starting on the opening brace with
count 0, take characters through the one that balances the count back to
zero; `none` is the `Unbalanced braces` error. -/
def takeBalanced (depth : Nat) : List Nat → Option (List Nat)
  | [] => none
  | c :: rest =>
      let d2 := if c = 123 then depth + 1 else if c = 125 then depth - 1 else depth
      if d2 = 0 then some [c]
      else (fun l => c :: l) <$> takeBalanced d2 rest

/-- Property lookup on a parsed JSON object (`parsed.recommendations`). -/
def jsonGet (j : Json) (key : JStr) : Option Json :=
  match j with
  | Json.obj fields => (fields.find? (fun kv => kv.1 == key)).map (fun kv => kv.2)
  | _ => none

/-- The `try` block of `parseRecommendations`: strip fences, trim, extract
the first balanced brace-delimited object, `JSON.parse` it, and require a
`recommendations` array (the JS truthiness-and-`Array.isArray` check
accepts exactly arrays). -/
def extractRecommendations (response : List Nat) : Option (List Json) := do
  let fromBrace ← dropToBrace (trimJs (stripBareFences (stripJsonFences response)))
  let jsonStr ← takeBalanced 0 fromBrace
  let parsed ← jsonParse jsonStr
  match jsonGet parsed (jstr "recommendations") with
  | some (Json.arr recs) => some recs
  | _ => none

/-- The fallback object returned by `parseRecommendations` on any failure:
a fixed sentinel recommendation (the raw response is only logged). -/
def fallbackRecommendation : Json :=
  Json.obj [
    (jstr "rank", Json.num 1),
    (jstr "destination", Json.str (jstr "Parsing Error")),
    (jstr "startDate", Json.str []),
    (jstr "endDate", Json.str []),
    (jstr "weatherRating", Json.num 0),
    (jstr "avgFlightPrice", Json.str (jstr "N/A")),
    (jstr "reasoning", Json.str (jstr
      "Failed to parse AI response. Please tap Regenerate to try again."))]

/-- Method `app.parseRecommendations(response)`. -/
def parseRecommendations (response : List Nat) : List Json :=
  match extractRecommendations response with
  | some recs => recs
  | none => [fallbackRecommendation]

/-- C6 (amended): whenever extraction or parsing fails (no JSON object
found, unbalanced braces, parse error, or missing `recommendations`
array), `parseRecommendations` returns the one-element fallback sequence
whose single recommendation's destination is the sentinel label
`Parsing Error` and whose explanation is a fixed failure message — the raw
input text is not carried in the result (it is only logged). -/
theorem C6_parse_failure_fallback (response : List Nat)
    (h : extractRecommendations response = none) :
    parseRecommendations response = [fallbackRecommendation] ∧
    jsonGet fallbackRecommendation (jstr "destination") =
      some (Json.str (jstr "Parsing Error")) ∧
    jsonGet fallbackRecommendation (jstr "reasoning") =
      some (Json.str (jstr
        "Failed to parse AI response. Please tap Regenerate to try again.")) := by
  refine ⟨?_, rfl, rfl⟩
  unfold parseRecommendations
  rw [h]

/-- The AI-parse-fallback scenario input (an apology with no JSON). -/
def c6Text : JStr :=
  jstr "Sorry, I cannot help with that."

/-- C6 counterexample: at the scenario input the fallback is produced, but
its explanation is the fixed retry message, not the raw input text — the
claim that the fallback "carries the raw input text as its explanation" is
false. -/
theorem C6_counterexample :
    parseRecommendations c6Text = [fallbackRecommendation] ∧
    jsonGet fallbackRecommendation (jstr "reasoning") =
      some (Json.str (jstr
        "Failed to parse AI response. Please tap Regenerate to try again.")) ∧
    jstr "Failed to parse AI response. Please tap Regenerate to try again." ≠
      c6Text := by
  refine ⟨rfl, rfl, by decide⟩

/-- Closed evaluation witness for C6 at the scenario input. -/
theorem C6_witness :
    parseRecommendations c6Text = [fallbackRecommendation] ∧
    jsonGet fallbackRecommendation (jstr "destination") =
      some (Json.str (jstr "Parsing Error")) ∧
    jsonGet fallbackRecommendation (jstr "reasoning") =
      some (Json.str (jstr
        "Failed to parse AI response. Please tap Regenerate to try again.")) :=
  C6_parse_failure_fallback c6Text (by rfl)

end TripSync

